import Mathlib

/-!
Shallow embedding of the constraint solver in `src/core/compiler/src/solver.rs`
(crate `argon`).  Floating-point numbers (`f64`) are embedded as exact
rationals; the tolerance comparisons of the `approx` crate are modelled
exactly, with `f64::EPSILON = 2⁻⁵²` as the `max_relative` bound and the
crate-level `EPSILON = 1e-8` as the absolute bound where the source passes it.
`IndexMap` / `IndexSet` are modelled as insertion-ordered association lists
with `insert` replacing in place and `swap_remove` swapping the removed slot
with the last entry, matching the `indexmap` crate.
-/

set_option allowUnsafeReducibility true
attribute [local semireducible] Rat.add Rat.mul Rat.div Rat.sub Rat.neg Rat.inv
attribute [local semireducible] Rat.normalize Rat.floor Rat.ceil
set_option maxRecDepth 100000

namespace Argon

/-- `f64::EPSILON` (2⁻⁵²), the default `epsilon` and `max_relative`
of `approx::relative_eq!`. -/
def MEPS : ℚ := 1 / 2 ^ 52

/-- `const EPSILON: f64 = 1e-8;` from solver.rs. -/
def EPSILON : ℚ := 1 / 10 ^ 8

/-- `const ROUND_STEP: f64 = 0.1;` from solver.rs. -/
def ROUND_STEP : ℚ := 1 / 10

/-- `const INV_ROUND_STEP: f64 = 1. / ROUND_STEP;` from solver.rs. -/
def INV_ROUND_STEP : ℚ := 10

/-- `approx::relative_eq!(a, b, epsilon = eps)`: true when the absolute
difference is within `eps`, or within `max(|a|,|b|) * f64::EPSILON`
(the default `max_relative`). -/
def relEqB (eps a b : ℚ) : Bool :=
  decide (|a - b| ≤ eps) || decide (|a - b| ≤ max |a| |b| * MEPS)

/-- `f64::round`: round half away from zero, to an integer. -/
def froundZ (x : ℚ) : ℤ :=
  if 0 ≤ x then ⌊x + 1 / 2⌋ else ⌈x - 1 / 2⌉

/-- `fn round(x: f64) -> f64 { (x * INV_ROUND_STEP).round() * ROUND_STEP }` -/
def roundq (x : ℚ) : ℚ :=
  (froundZ (x * INV_ROUND_STEP) : ℚ) * ROUND_STEP

/-- `IndexMap::get`: value of the first (and only) entry with the given key. -/
def imGet {α : Type} : List (Nat × α) → Nat → Option α
  | [], _ => none
  | p :: m, k => if p.1 = k then some p.2 else imGet m k

/-- `IndexMap::insert`: replace in place when the key is present,
otherwise append at the end. -/
def imInsert {α : Type} : List (Nat × α) → Nat → α → List (Nat × α)
  | [], k, v => [(k, v)]
  | p :: m, k, v => if p.1 = k then (k, v) :: m else p :: imInsert m k v

/-- Remove the entry at index `i` by moving the last entry into its slot and
popping the last slot (`indexmap`'s swap-remove of a position). -/
def swapRemoveIdx {α : Type} (l : List α) (i : Nat) : List α :=
  match l.getLast? with
  | none => l
  | some last => (l.set i last).dropLast

/-- `IndexMap::swap_remove` keyed variant. -/
def imSwapRemove {α : Type} (m : List (Nat × α)) (k : Nat) : List (Nat × α) :=
  match m.findIdx? (fun p => p.1 == k) with
  | some i => swapRemoveIdx m i
  | none => m

/-- `IndexSet::insert`: append at the end when absent. -/
def isInsert (l : List Nat) (k : Nat) : List Nat :=
  if k ∈ l then l else l ++ [k]

/-- `IndexSet::swap_remove`. -/
def isSwapRemove (l : List Nat) (k : Nat) : List Nat :=
  match l.findIdx? (fun x => x == k) with
  | some i => swapRemoveIdx l i
  | none => l

/-- `pub struct LinearExpr { pub coeffs: Vec<(f64, Var)>, pub constant: f64 }`.
A `Var` is its `u64` identity. -/
structure LinearExpr where
  coeffs : List (ℚ × Nat)
  constant : ℚ
deriving DecidableEq

/-- The variables mentioned by a linear expression. -/
def LinearExpr.varsOf (e : LinearExpr) : List Nat := e.coeffs.map (fun cv => cv.2)

/-- `LinearExpr::simplify`: partition the coefficient list; coefficients that
are `relative_eq!` to zero (with `epsilon = EPSILON`) contribute `0.`, solved
variables contribute `coeff * value`; the rest are kept in order.  The folded
contributions are summed left-to-right and added to the constant. -/
def LinearExpr.simplify (e : LinearExpr) (table : List (Nat × ℚ)) : LinearExpr :=
  let folded : List ℚ := e.coeffs.filterMap (fun cv =>
    if relEqB EPSILON cv.1 0 then some 0
    else match imGet table cv.2 with
      | some s => some (cv.1 * s)
      | none => none)
  let kept : List (ℚ × Nat) := e.coeffs.filter (fun cv =>
    !(relEqB EPSILON cv.1 0) && (imGet table cv.2).isNone)
  { coeffs := kept, constant := e.constant + folded.foldl (· + ·) 0 }

/-- `pub struct Solver { .. }` from solver.rs, with `Var = u64` as `Nat` and
`ConstraintId = u64` as `Nat`.  The back-substitution stack is kept with its
top (the `Vec`'s end) at the head of the list. -/
structure Solver where
  next_var : Nat
  next_constraint : Nat
  constraints : List (Nat × LinearExpr)
  var_to_constraints : List (Nat × List Nat)
  solved_vars : List (Nat × ℚ)
  unsolved_vars : List Nat
  back_substitute_stack : List Nat
  inconsistent_constraints : List Nat
  invalid_rounding : List Nat
deriving DecidableEq

/-- `Solver::new()` / `Default::default()`. -/
def Solver.new : Solver := ⟨0, 0, [], [], [], [], [], [], []⟩

/-- `Solver::new_var`. -/
def Solver.new_var (s : Solver) : Nat × Solver :=
  (s.next_var,
    { s with unsolved_vars := isInsert s.unsolved_vars s.next_var,
             next_var := s.next_var + 1 })

/-- `Solver::fully_solved`. -/
def Solver.fully_solved (s : Solver) : Bool := s.unsolved_vars.isEmpty

/-- `Solver::solve_var`. -/
def Solver.solve_var (s : Solver) (var : Nat) (val : ℚ) : Solver :=
  { s with solved_vars := imInsert s.solved_vars var val,
           unsolved_vars := isSwapRemove s.unsolved_vars var }

/-- `Solver::value_of`. -/
def Solver.value_of (s : Solver) (var : Nat) : Option ℚ := imGet s.solved_vars var

/-- `Solver::is_solved`. -/
def Solver.is_solved (s : Solver) (var : Nat) : Bool := (s.value_of var).isSome

/-- `var_to_constraints.get(&var).into_iter().flatten()`. -/
def vtcGet (m : List (Nat × List Nat)) (k : Nat) : List Nat :=
  match imGet m k with
  | some l => l
  | none => []

/-- `var_to_constraints.entry(var).or_insert(IndexSet::new()).insert(id)`. -/
def vtcInsertId (m : List (Nat × List Nat)) (v id : Nat) : List (Nat × List Nat) :=
  match imGet m v with
  | some l => imInsert m v (isInsert l id)
  | none => imInsert m v (isInsert [] id)

/-- Lines 112-137 of `try_back_substitute`: the popped constraint has
simplified to the single coefficient `(coeff, var)` with constant `k`.  Solve
`var` (rounding the value to the grid and flagging the variable when rounding
moves it beyond tolerance; an already-solved conflicting value flags the
constraint instead), remove the constraint, and push every constraint
registered for `var`. -/
def backSubSingle (s0 : Solver) (id : Nat) (coeff : ℚ) (var : Nat) (k : ℚ) : Solver :=
  let val := -k / coeff
  let s1 : Solver :=
    match imGet s0.solved_vars var with
    | some old_val =>
      if !(relEqB EPSILON old_val val) then
        { s0 with inconsistent_constraints := isInsert s0.inconsistent_constraints id }
      else s0
    | none =>
      let rounded_val := roundq val
      let s2 : Solver :=
        if !(relEqB EPSILON val rounded_val) then
          { s0 with invalid_rounding := isInsert s0.invalid_rounding var }
        else s0
      s2.solve_var var rounded_val
  let s3 : Solver := { s1 with constraints := imSwapRemove s1.constraints id }
  { s3 with back_substitute_stack :=
      (vtcGet s3.var_to_constraints var).reverse ++ s3.back_substitute_stack }

/-- Examination of a popped, still-stored constraint after simplification
(lines 104-138 of solver.rs): zero coefficients with a residual constant not
`relative_eq!` to zero flag the constraint inconsistent and drop it; one
coefficient solves the variable; anything else stores the simplified
constraint back (the source's in-place `get_mut` simplification). -/
def backSubExamine (s0 : Solver) (id : Nat) (c : LinearExpr) : Solver :=
  if c.coeffs.isEmpty && !(relEqB MEPS c.constant 0) then
    { s0 with
        inconsistent_constraints := isInsert s0.inconsistent_constraints id,
        constraints := imSwapRemove s0.constraints id }
  else
    match c.coeffs with
    | [(coeff, var)] => backSubSingle s0 id coeff var c.constant
    | _ => { s0 with constraints := imInsert s0.constraints id c }

/-- The body of `try_back_substitute` for a popped id (after the stack pop):
nothing happens unless the constraint is still stored, in which case it is
simplified against the solved table and examined. -/
def backSubBody (s0 : Solver) (id : Nat) : Solver :=
  match imGet s0.constraints id with
  | none => s0
  | some c0 => backSubExamine s0 id (c0.simplify s0.solved_vars)

/-- `Solver::try_back_substitute`: pop a constraint id from the work list and
process it. -/
def Solver.try_back_substitute (s : Solver) : Solver :=
  match s.back_substitute_stack with
  | [] => s
  | id :: rest => backSubBody { s with back_substitute_stack := rest } id

/-- Total size of the `var_to_constraints` table. -/
def vtcTotal (m : List (Nat × List Nat)) : Nat :=
  (m.map (fun p => p.2.length)).sum

/-- Iteration bound for the `while !self.back_substitute_stack.is_empty()`
loop of `constrain_eq0`.  Every `try_back_substitute` step pops one id and
either leaves the constraint map unchanged, or removes one constraint while
pushing at most `vtcTotal` ids; hence
`stack.length + constraints.length * (vtcTotal + 1)` strictly bounds the
number of loop iterations and the loop always empties the stack within this
fuel. -/
def drainFuel (s : Solver) : Nat :=
  s.back_substitute_stack.length + s.constraints.length * (vtcTotal s.var_to_constraints + 1)

/-- The `while !self.back_substitute_stack.is_empty() { self.try_back_substitute(); }`
loop, run for at most `fuel` iterations. -/
def drain : Nat → Solver → Solver
  | 0, s => s
  | n + 1, s =>
    if s.back_substitute_stack.isEmpty then s else drain n s.try_back_substitute

/-- `Solver::constrain_eq0`: allocate the next constraint id, record the id
under every mentioned variable, store the constraint, push it and drain the
back-substitution work list. -/
def Solver.constrain_eq0 (s : Solver) (expr : LinearExpr) : Nat × Solver :=
  let id := s.next_constraint
  let vtc := expr.coeffs.foldl (fun m cv => vtcInsertId m cv.2 id) s.var_to_constraints
  let s1 : Solver :=
    { s with
        next_constraint := id + 1,
        var_to_constraints := vtc,
        constraints := imInsert s.constraints id expr,
        back_substitute_stack := id :: s.back_substitute_stack }
  (id, drain (drainFuel s1) s1)

/-- Register several constraints in order, through `constrain_eq0` only
(no call to the batched `solve` path). -/
def Solver.registerAll (s : Solver) (es : List LinearExpr) : Solver :=
  es.foldl (fun acc e => (acc.constrain_eq0 e).2) s

/-- Row of the coefficient matrix for one constraint over the snapshot of
unsolved variables (the `CsMatrix::from_triplet` build, which sums duplicate
entries; a coefficient on a variable absent from the snapshot would make the
source panic on `get_index_of(..).unwrap()` and has no row entry here). -/
def rowOf (unsolved : List Nat) (e : LinearExpr) : List ℚ :=
  unsolved.map (fun v =>
    ((e.coeffs.filter (fun cv => cv.2 == v)).map (fun cv => cv.1)).foldl (· + ·) 0)

/-- The `i`-th standard basis row of length `n`. -/
def stdBasisRow (n j : Nat) : List ℚ :=
  (List.range n).map (fun i => if i = j then 1 else 0)

/-- Scale a row. -/
def rowScale (c : ℚ) (r : List ℚ) : List ℚ := r.map (fun x => c * x)

/-- Subtract rows pointwise. -/
def rowSub (r q : List ℚ) : List ℚ := List.zipWith (fun a b => a - b) r q

/-- Eliminate column `j` from row `r` using the normalized pivot row. -/
def elimOn (piv : List ℚ) (j : Nat) (r : List ℚ) : List ℚ :=
  rowSub r (rowScale (r.getD j 0) piv)

/-- Exact Gauss–Jordan elimination of an augmented matrix, selecting pivots
in the first `j`-columns only (the augmented column is carried along).
`fuel` counts the columns still to process. -/
def gauss : Nat → Nat → List (List ℚ) → List (List ℚ) → List (List ℚ)
  | 0, _, pivots, rows => pivots ++ rows
  | fuel + 1, j, pivots, rows =>
    match rows.findIdx? (fun r => !(decide (r.getD j 0 = 0))) with
    | none => gauss fuel (j + 1) pivots rows
    | some i =>
      let r := rows.getD i []
      let piv := rowScale (r.getD j 0)⁻¹ r
      gauss fuel (j + 1) (pivots.map (elimOn piv j) ++ [piv])
        ((rows.eraseIdx i).map (elimOn piv j))

/-- Lines 180-186 of `solve`: commit every unsolved variable whose basis row
was reconstructed by the factorization, with the corresponding solution
value. -/
def solveCommit (s : Solver) (unsolved : List Nat) (nVars : Nat)
    (red : List (List ℚ)) : Solver :=
  unsolved.enum.foldl (fun acc p =>
    match red.find? (fun row => decide (row.take nVars = stdBasisRow nVars p.1)) with
    | some row => acc.solve_var p.2 (row.getD nVars 0)
    | none => acc) s

/-- Lines 187-194 of `solve`: re-simplify every stored constraint against the
newly solved variables in place, flagging those reduced to zero coefficients
with a residual constant beyond tolerance. -/
def solveResimplify (s1 : Solver) : Solver :=
  { s1 with
      constraints := s1.constraints.map (fun p => (p.1, p.2.simplify s1.solved_vars)),
      inconsistent_constraints :=
        ((s1.constraints.map (fun p => (p.1, p.2.simplify s1.solved_vars))).filter
          (fun p => p.2.coeffs.isEmpty && !(relEqB EPSILON p.2.constant 0))).foldl
            (fun acc p => isInsert acc p.1) s1.inconsistent_constraints }

/-- Lines 195-204 of `solve`: round every solved value to the grid; flag the
variable (keeping the unrounded value) when rounding moves it beyond
tolerance, otherwise store the rounded value. -/
def solveRound (s2 : Solver) : Solver :=
  (List.range s2.next_var).foldl (fun acc i =>
    match imGet acc.solved_vars i with
    | some val =>
      if !(relEqB EPSILON val (roundq val)) then
        { acc with invalid_rounding := isInsert acc.invalid_rounding i }
      else
        { acc with solved_vars := imInsert acc.solved_vars i (roundq val) }
    | none => acc) s2

/-- Lines 205-206 of `solve`: retain only constraints that still have
coefficients. -/
def solveRetain (s3 : Solver) : Solver :=
  { s3 with constraints := s3.constraints.filter (fun p => !p.2.coeffs.isEmpty) }

/-- Lines 173-206 of `solve`, after the factorization: return unchanged when
the numerical rank is zero, otherwise commit the determined variables and run
the re-simplification, rounding and retain passes. -/
def solveResolve (s : Solver) (unsolved : List Nat) (nVars : Nat)
    (red : List (List ℚ)) : Solver :=
  if (red.filter (fun row => !((row.take nVars).all (fun x => decide (x = 0))))).length = 0
  then s
  else solveRetain (solveRound (solveResimplify (solveCommit s unsolved nVars red)))

/-- `Solver::solve`: build the matrix of pending constraints over the snapshot
of unsolved variables and resolve it by rank / row-space analysis.

The `nalgebra` SVD is an external library call; it is modelled here by its
exact-arithmetic contract (spec §4.2: any factorization identifying the
numerical rank and a rank-consistent particular solution): the source commits
variable `i` exactly when the reconstruction `(Vᵣᵀ Vᵣ eᵢ)ᵢ` is 1, i.e. when
`eᵢ` lies in the row space of `A`; over exact arithmetic that holds exactly
when Gauss–Jordan elimination of `[A | b]` produces the row `eᵢ`, whose
augmented entry is then the (unique, for consistent systems) value of that
variable.  The numerical rank is the exact rank. -/
def Solver.solve (s : Solver) : Solver :=
  if s.unsolved_vars.length = 0 ∨ s.constraints.isEmpty then s
  else
    solveResolve s s.unsolved_vars s.unsolved_vars.length
      (gauss s.unsolved_vars.length 0 []
        (s.constraints.map (fun p => rowOf s.unsolved_vars p.2 ++ [-p.2.constant])))

/-- The `while !self.fully_solved()` loop of `force_solution`, with an
explicit iteration budget: each iteration pins the first unsolved variable to
zero via `constrain_eq0` and re-runs `solve`. -/
def Solver.force_solution_fuel : Nat → Solver → Solver
  | 0, s => s
  | n + 1, s =>
    if s.fully_solved then s
    else
      match s.unsolved_vars with
      | [] => s
      | v :: _ => Solver.force_solution_fuel n ((s.constrain_eq0 ⟨[(1, v)], 0⟩).2).solve

/-- `Solver::force_solution`.  One unsolved variable is pinned per iteration,
so the number of unsolved variables bounds the loop. -/
def Solver.force_solution (s : Solver) : Solver :=
  Solver.force_solution_fuel s.unsolved_vars.length s

/-- The `fold_options` accumulation inside `eval_expr`: `None` as soon as any
referenced variable is unsolved, otherwise the left fold of
`value * coeff` from `0.`. -/
def Solver.lincombOpt (s : Solver) (e : LinearExpr) : Option ℚ :=
  e.coeffs.foldl (fun acc cv =>
    match acc, imGet s.solved_vars cv.2 with
    | some a, some val => some (a + val * cv.1)
    | _, _ => none) (some 0)

/-- `Solver::eval_expr`: the grid-rounded value of the linear combination
plus constant, or `None` when a referenced variable is unsolved. -/
def Solver.eval_expr (s : Solver) (e : LinearExpr) : Option ℚ :=
  (s.lincombOpt e).map (fun t => roundq (t + e.constant))

/-- A solver built by allocating `n` fresh variables. -/
def mkSolverVars (n : Nat) : Solver :=
  (List.range n).foldl (fun s _ => (s.new_var).2) Solver.new

/-- Well-formedness carried by every reachable solver state: the unsolved set
has no duplicates and is disjoint from the keys of the solved table. -/
def WFstate (s : Solver) : Prop :=
  s.unsolved_vars.Nodup ∧ ∀ v ∈ s.unsolved_vars, imGet s.solved_vars v = none

/-- An acyclic chain of equality constraints, each reducible to one free
variable at the moment it is registered: `Chain s es vs` says that registering
`es` in order from state `s` simplifies each expression, against the solved
table current at its turn, to a single free variable; `vs` records the value
the code commits for that variable, namely the grid rounding `roundq` of the
implied value `-k / cf` (equal to the implied value itself exactly when that
value lies on the rounding grid). -/
inductive Chain : Solver → List LinearExpr → List (Nat × ℚ) → Prop
  | nil (s : Solver) : Chain s [] []
  | cons (s : Solver) (e : LinearExpr) (es : List LinearExpr)
      (cf : ℚ) (v : Nat) (k : ℚ) (vs : List (Nat × ℚ))
      (hsimp : e.simplify s.solved_vars = ⟨[(cf, v)], k⟩)
      (hv : imGet s.solved_vars v = none)
      (hrest : Chain (s.constrain_eq0 e).2 es vs) :
      Chain s (e :: es) ((v, roundq (-k / cf)) :: vs)

/-! ### Helper lemmas about the `IndexMap`/`IndexSet` model -/

theorem imGet_imInsert_self {α : Type} (m : List (Nat × α)) (k : Nat) (v : α) :
    imGet (imInsert m k v) k = some v := by
  induction m with
  | nil => simp [imInsert, imGet]
  | cons p m ih =>
    by_cases h : p.1 = k
    · simp [imInsert, imGet, h]
    · simp [imInsert, imGet, h, ih]

theorem imGet_imInsert_ne {α : Type} (m : List (Nat × α)) (k j : Nat) (v : α)
    (h : j ≠ k) : imGet (imInsert m k v) j = imGet m j := by
  induction m with
  | nil => simp [imInsert, imGet, Ne.symm h]
  | cons p m ih =>
    by_cases hp : p.1 = k
    · subst hp
      simp [imInsert, imGet, Ne.symm h]
    · simp [imInsert, imGet, hp, ih]

theorem imInsert_eq_append {α : Type} (m : List (Nat × α)) (k : Nat) (v : α)
    (h : ∀ p ∈ m, p.1 ≠ k) : imInsert m k v = m ++ [(k, v)] := by
  induction m with
  | nil => simp [imInsert]
  | cons p m ih =>
    have hp : p.1 ≠ k := h p (List.mem_cons_self p m)
    simp only [imInsert, if_neg hp, List.cons_append, List.cons.injEq, true_and]
    exact ih (fun q hq => h q (List.mem_cons_of_mem p hq))

theorem imGet_append_last {α : Type} (m : List (Nat × α)) (k : Nat) (v : α)
    (h : ∀ p ∈ m, p.1 ≠ k) : imGet (m ++ [(k, v)]) k = some v := by
  induction m with
  | nil => simp [imGet]
  | cons p m ih =>
    have hp : p.1 ≠ k := h p (List.mem_cons_self p m)
    simpa [imGet, hp] using ih (fun q hq => h q (List.mem_cons_of_mem p hq))

theorem findIdx?_append_last {α : Type} (m : List (Nat × α)) (k : Nat) (v : α)
    (h : ∀ p ∈ m, p.1 ≠ k) :
    (m ++ [(k, v)]).findIdx? (fun p => p.1 == k) = some m.length := by
  induction m with
  | nil => simp [List.findIdx?]
  | cons p m ih =>
    have hp : p.1 ≠ k := h p (by simp)
    have heq := ih (fun q hq => h q (List.mem_cons_of_mem p hq))
    simp only [List.cons_append, List.findIdx?_cons, beq_iff_eq, if_neg hp,
      List.findIdx?_succ, heq, Option.map_some', List.length_cons]

theorem swapRemoveIdx_last {α : Type} (m : List α) (a : α) :
    swapRemoveIdx (m ++ [a]) m.length = m := by
  unfold swapRemoveIdx
  have hne : m ++ [a] ≠ [] := by simp
  rw [List.getLast?_eq_getLast _ hne]
  show ((m ++ [a]).set m.length ((m ++ [a]).getLast hne)).dropLast = m
  have hlast : (m ++ [a]).getLast hne = a := by
    simp [List.getLast_append]
  rw [hlast]
  have hset : (m ++ [a]).set m.length a = m ++ [a] := by
    apply List.ext_getElem
    · simp
    · intro i h1 h2
      by_cases hi : i = m.length
      · subst hi
        simp [List.getElem_set]
      · simp [List.getElem_set, hi]
  rw [hset, List.dropLast_concat]

theorem imSwapRemove_append {α : Type} (m : List (Nat × α)) (k : Nat) (v : α)
    (h : ∀ p ∈ m, p.1 ≠ k) : imSwapRemove (m ++ [(k, v)]) k = m := by
  unfold imSwapRemove
  rw [findIdx?_append_last m k v h]
  exact swapRemoveIdx_last m (k, v)

theorem imSwapRemove_singleton {α : Type} (k : Nat) (v : α) :
    imSwapRemove [(k, v)] k = [] :=
  imSwapRemove_append [] k v (by simp)

theorem getLast_drop_eq {α : Type} (l : List α) (i : Nat)
    (hdropne : l.drop (i + 1) ≠ []) (hne : l ≠ []) :
    (l.drop (i + 1)).getLast hdropne = l.getLast hne := by
  rw [List.getLast_eq_getElem, List.getLast_eq_getElem, List.getElem_drop]
  congr 1
  have hlen : (l.drop (i + 1)).length = l.length - (i + 1) := List.length_drop _ _
  have hpos : 0 < (l.drop (i + 1)).length := List.length_pos.2 hdropne
  omega

/-- `swapRemoveIdx l i` is a permutation of plainly removing index `i`. -/
theorem swapRemoveIdx_perm {α : Type} (l : List α) (i : Nat) (h : i < l.length) :
    (swapRemoveIdx l i).Perm (l.eraseIdx i) := by
  have hne : l ≠ [] := by
    intro hl; subst hl; simp at h
  unfold swapRemoveIdx
  rw [List.getLast?_eq_getLast _ hne]
  show ((l.set i (l.getLast hne)).dropLast).Perm (l.eraseIdx i)
  rw [List.set_eq_take_append_cons_drop, if_pos h, List.eraseIdx_eq_take_drop_succ]
  by_cases hi : i = l.length - 1
  · have hdrop : l.drop (i + 1) = [] := by
      apply List.drop_eq_nil_of_le
      omega
    rw [hdrop, List.dropLast_concat, List.append_nil]
  · have hdropne : l.drop (i + 1) ≠ [] := by
      simp only [ne_eq, List.drop_eq_nil_iff, not_le]
      omega
    have hdl : (l.take i ++ l.getLast hne :: l.drop (i + 1)).dropLast
        = l.take i ++ l.getLast hne :: (l.drop (i + 1)).dropLast := by
      rw [List.dropLast_append_of_ne_nil _ (by simp)]
      rw [List.dropLast_cons_of_ne_nil hdropne]
    rw [hdl]
    refine List.Perm.append_left _ ?_
    have hgl := getLast_drop_eq l i hdropne hne
    have hperm : (l.getLast hne :: (l.drop (i + 1)).dropLast).Perm
        ((l.drop (i + 1)).dropLast ++ [l.getLast hne]) :=
      (List.perm_append_singleton _ _).symm
    have hcat : (l.drop (i + 1)).dropLast ++ [l.getLast hne] = l.drop (i + 1) := by
      rw [← hgl]
      exact List.dropLast_append_getLast hdropne
    conv_rhs => rw [← hcat]
    exact hperm

theorem swapRemoveIdx_length {α : Type} (l : List α) (i : Nat) (h : i < l.length) :
    (swapRemoveIdx l i).length = l.length - 1 := by
  rw [(swapRemoveIdx_perm l i h).length_eq, List.length_eraseIdx_of_lt h]

theorem swapRemoveIdx_subset {α : Type} (l : List α) (i : Nat) (h : i < l.length) :
    swapRemoveIdx l i ⊆ l :=
  fun _ ha => (List.eraseIdx_sublist l i).subset ((swapRemoveIdx_perm l i h).subset ha)

theorem swapRemoveIdx_nodup {α : Type} (l : List α) (i : Nat) (h : i < l.length)
    (hn : l.Nodup) : (swapRemoveIdx l i).Nodup :=
  ((swapRemoveIdx_perm l i h).nodup_iff).2 ((List.eraseIdx_sublist l i).nodup hn)

theorem mem_eraseIdx_of_ne {α : Type} (l : List α) (i : Nat) (h : i < l.length)
    (w : α) (hw : w ∈ l) (hne : w ≠ l[i]) : w ∈ l.eraseIdx i := by
  rw [List.eraseIdx_eq_take_drop_succ]
  have hl : l = l.take i ++ l[i] :: l.drop (i + 1) := by
    conv_lhs => rw [← List.take_append_drop i l]
    congr 1
    rw [List.drop_eq_getElem_cons h]
  rw [hl] at hw
  rcases List.mem_append.1 hw with h1 | h2
  · exact List.mem_append.2 (Or.inl h1)
  · rcases List.mem_cons.1 h2 with h3 | h4
    · exact absurd h3 hne
    · exact List.mem_append.2 (Or.inr h4)

theorem mem_swapRemoveIdx_of_ne {α : Type} (l : List α) (i : Nat) (h : i < l.length)
    (w : α) (hw : w ∈ l) (hne : w ≠ l[i]) : w ∈ swapRemoveIdx l i :=
  (swapRemoveIdx_perm l i h).mem_iff.2 (mem_eraseIdx_of_ne l i h w hw hne)

theorem isSwapRemove_subset (l : List Nat) (k : Nat) : isSwapRemove l k ⊆ l := by
  unfold isSwapRemove
  cases hf : l.findIdx? (fun x => x == k) with
  | none => exact fun _ h => h
  | some i =>
    obtain ⟨hi, _, _⟩ := List.findIdx?_eq_some_iff_getElem.1 hf
    exact swapRemoveIdx_subset l i hi

theorem mem_isSwapRemove_of_ne (l : List Nat) (k w : Nat) (hw : w ∈ l) (hne : w ≠ k) :
    w ∈ isSwapRemove l k := by
  unfold isSwapRemove
  cases hf : l.findIdx? (fun x => x == k) with
  | none => exact hw
  | some i =>
    obtain ⟨hi, hp, _⟩ := List.findIdx?_eq_some_iff_getElem.1 hf
    have hk : l[i] = k := by simpa using hp
    exact mem_swapRemoveIdx_of_ne l i hi w hw (by rw [hk]; exact hne)

theorem isSwapRemove_length_le (l : List Nat) (k : Nat) :
    (isSwapRemove l k).length ≤ l.length := by
  unfold isSwapRemove
  cases hf : l.findIdx? (fun x => x == k) with
  | none => exact Nat.le_refl _
  | some i =>
    obtain ⟨hi, _, _⟩ := List.findIdx?_eq_some_iff_getElem.1 hf
    rw [swapRemoveIdx_length l i hi]
    omega

theorem isSwapRemove_length_lt (l : List Nat) (k : Nat) (hk : k ∈ l) :
    (isSwapRemove l k).length < l.length := by
  unfold isSwapRemove
  cases hf : l.findIdx? (fun x => x == k) with
  | none =>
    rw [List.findIdx?_eq_none_iff] at hf
    have := hf k hk
    simp at this
  | some i =>
    obtain ⟨hi, _, _⟩ := List.findIdx?_eq_some_iff_getElem.1 hf
    rw [swapRemoveIdx_length l i hi]
    omega

theorem isSwapRemove_nodup (l : List Nat) (k : Nat) (hn : l.Nodup) :
    (isSwapRemove l k).Nodup := by
  unfold isSwapRemove
  cases hf : l.findIdx? (fun x => x == k) with
  | none => exact hn
  | some i =>
    obtain ⟨hi, _, _⟩ := List.findIdx?_eq_some_iff_getElem.1 hf
    exact swapRemoveIdx_nodup l i hi hn

theorem not_mem_isSwapRemove_self (l : List Nat) (k : Nat) (hn : l.Nodup) (hk : k ∈ l) :
    k ∉ isSwapRemove l k := by
  unfold isSwapRemove
  cases hf : l.findIdx? (fun x => x == k) with
  | none =>
    rw [List.findIdx?_eq_none_iff] at hf
    have := hf k hk
    simp at this
  | some i =>
    obtain ⟨hi, hp, _⟩ := List.findIdx?_eq_some_iff_getElem.1 hf
    have hki : l[i] = k := by simpa using hp
    intro hmem
    have hmem2 : k ∈ l.eraseIdx i := (swapRemoveIdx_perm l i hi).mem_iff.1 hmem
    have hcount : l.count k ≤ 1 := List.nodup_iff_count_le_one.1 hn k
    have hsplit : l = l.take i ++ l[i] :: l.drop (i + 1) := by
      conv_lhs => rw [← List.take_append_drop i l]
      congr 1
      rw [List.drop_eq_getElem_cons hi]
    rw [List.eraseIdx_eq_take_drop_succ] at hmem2
    have hk2 : k ∈ l.take i ++ l.drop (i + 1) := hmem2
    have hcount2 : 2 ≤ l.count k := by
      conv_rhs => rw [hsplit]
      rw [List.count_append, List.count_cons]
      rcases List.mem_append.1 hk2 with h1 | h2
      · have := List.count_pos_iff.2 h1
        simp only [hki, beq_self_eq_true, if_true]
        omega
      · have := List.count_pos_iff.2 h2
        simp only [hki, beq_self_eq_true, if_true]
        omega
    omega

theorem mem_isInsert_self (l : List Nat) (k : Nat) : k ∈ isInsert l k := by
  unfold isInsert
  by_cases h : k ∈ l
  · simp only [if_pos h]
    exact h
  · simp [h]

theorem mem_isInsert_of_mem (l : List Nat) (k w : Nat) (hw : w ∈ l) : w ∈ isInsert l k := by
  unfold isInsert
  by_cases h : k ∈ l
  · simpa [h]
  · simp [h, hw]

theorem vtcGet_length_le_total (m : List (Nat × List Nat)) (k : Nat) :
    (vtcGet m k).length ≤ vtcTotal m := by
  unfold vtcGet
  cases hg : imGet m k with
  | none => simp
  | some l =>
    induction m with
    | nil => simp [imGet] at hg
    | cons p m ih =>
      unfold imGet at hg
      by_cases hp : p.1 = k
      · rw [if_pos hp] at hg
        cases hg
        simp only [vtcTotal, List.map_cons, List.sum_cons]
        omega
      · rw [if_neg hp] at hg
        have := ih hg
        simp only [vtcTotal, List.map_cons, List.sum_cons] at *
        omega

theorem foldl_inv {α β : Type} (P : β → Prop) (f : β → α → β) (l : List α) (b : β)
    (h0 : P b) (hstep : ∀ acc a, a ∈ l → P acc → P (f acc a)) : P (l.foldl f b) := by
  induction l generalizing b with
  | nil => exact h0
  | cons a l ih =>
    exact ih (f b a) (hstep b a (List.mem_cons_self a l) h0)
      (fun acc x hx hacc => hstep acc x (List.mem_cons_of_mem a hx) hacc)

/-! ### Monotonicity of one back-substitution step -/

theorem bss_solved_mono (s0 : Solver) (id : Nat) (coeff : ℚ) (var : Nat) (k : ℚ)
    (v : Nat) (q : ℚ) (h : imGet s0.solved_vars v = some q) :
    imGet (backSubSingle s0 id coeff var k).solved_vars v = some q := by
  unfold backSubSingle
  cases hg : imGet s0.solved_vars var with
  | some old_val =>
    simp only [hg]
    split <;> exact h
  | none =>
    have hvne : v ≠ var := by
      intro hvv
      rw [hvv, hg] at h
      exact Option.noConfusion h
    simp only [hg, Solver.solve_var]
    split <;> (rw [imGet_imInsert_ne _ _ _ _ hvne]; exact h)

theorem bss_unsolved_subset (s0 : Solver) (id : Nat) (coeff : ℚ) (var : Nat) (k : ℚ) :
    (backSubSingle s0 id coeff var k).unsolved_vars ⊆ s0.unsolved_vars := by
  unfold backSubSingle
  cases hg : imGet s0.solved_vars var with
  | some old_val =>
    simp only [hg]
    split <;> exact fun _ h => h
  | none =>
    simp only [hg, Solver.solve_var]
    split <;> exact isSwapRemove_subset _ _

theorem bss_unsolved_len (s0 : Solver) (id : Nat) (coeff : ℚ) (var : Nat) (k : ℚ) :
    (backSubSingle s0 id coeff var k).unsolved_vars.length ≤ s0.unsolved_vars.length := by
  unfold backSubSingle
  cases hg : imGet s0.solved_vars var with
  | some old_val =>
    simp only [hg]
    split <;> exact Nat.le_refl _
  | none =>
    simp only [hg, Solver.solve_var]
    split <;> exact isSwapRemove_length_le _ _

theorem bss_invalid_mono (s0 : Solver) (id : Nat) (coeff : ℚ) (var : Nat) (k : ℚ)
    (w : Nat) (h : w ∈ s0.invalid_rounding) :
    w ∈ (backSubSingle s0 id coeff var k).invalid_rounding := by
  unfold backSubSingle
  cases hg : imGet s0.solved_vars var with
  | some old_val =>
    simp only [hg]
    split <;> exact h
  | none =>
    simp only [hg, Solver.solve_var]
    split
    · exact mem_isInsert_of_mem _ _ _ h
    · exact h

theorem bss_WF (s0 : Solver) (id : Nat) (coeff : ℚ) (var : Nat) (k : ℚ)
    (h : WFstate s0) : WFstate (backSubSingle s0 id coeff var k) := by
  obtain ⟨hnd, hdisj⟩ := h
  unfold backSubSingle
  cases hg : imGet s0.solved_vars var with
  | some old_val =>
    simp only [hg]
    split <;> exact ⟨hnd, hdisj⟩
  | none =>
    simp only [hg, Solver.solve_var]
    have hgoal : WFstate
        { s0 with solved_vars := imInsert s0.solved_vars var (roundq (-k / coeff)),
                  unsolved_vars := isSwapRemove s0.unsolved_vars var } := by
      refine ⟨isSwapRemove_nodup _ _ hnd, ?_⟩
      intro w hw
      have hwin : w ∈ s0.unsolved_vars := isSwapRemove_subset _ _ hw
      by_cases hwv : w = var
      · subst hwv
        exact absurd hw (not_mem_isSwapRemove_self _ _ hnd hwin)
      · rw [imGet_imInsert_ne _ _ _ _ hwv]
        exact hdisj w hwin
    split
    · exact hgoal
    · exact hgoal

theorem bse_solved_mono (s0 : Solver) (id : Nat) (c : LinearExpr) (v : Nat) (q : ℚ)
    (h : imGet s0.solved_vars v = some q) :
    imGet (backSubExamine s0 id c).solved_vars v = some q := by
  unfold backSubExamine
  split
  · exact h
  · split
    · exact bss_solved_mono _ _ _ _ _ _ _ h
    · exact h

theorem bse_unsolved_subset (s0 : Solver) (id : Nat) (c : LinearExpr) :
    (backSubExamine s0 id c).unsolved_vars ⊆ s0.unsolved_vars := by
  unfold backSubExamine
  split
  · exact fun _ h => h
  · split
    · exact bss_unsolved_subset _ _ _ _ _
    · exact fun _ h => h

theorem bse_unsolved_len (s0 : Solver) (id : Nat) (c : LinearExpr) :
    (backSubExamine s0 id c).unsolved_vars.length ≤ s0.unsolved_vars.length := by
  unfold backSubExamine
  split
  · exact Nat.le_refl _
  · split
    · exact bss_unsolved_len _ _ _ _ _
    · exact Nat.le_refl _

theorem bse_invalid_mono (s0 : Solver) (id : Nat) (c : LinearExpr) (w : Nat)
    (h : w ∈ s0.invalid_rounding) : w ∈ (backSubExamine s0 id c).invalid_rounding := by
  unfold backSubExamine
  split
  · exact h
  · split
    · exact bss_invalid_mono _ _ _ _ _ _ h
    · exact h

theorem bse_WF (s0 : Solver) (id : Nat) (c : LinearExpr) (h : WFstate s0) :
    WFstate (backSubExamine s0 id c) := by
  unfold backSubExamine
  split
  · exact h
  · split
    · exact bss_WF _ _ _ _ _ h
    · exact h

theorem bsb_solved_mono (s0 : Solver) (id : Nat) (v : Nat) (q : ℚ)
    (h : imGet s0.solved_vars v = some q) :
    imGet (backSubBody s0 id).solved_vars v = some q := by
  unfold backSubBody
  split
  · exact h
  · exact bse_solved_mono _ _ _ _ _ h

theorem bsb_unsolved_subset (s0 : Solver) (id : Nat) :
    (backSubBody s0 id).unsolved_vars ⊆ s0.unsolved_vars := by
  unfold backSubBody
  split
  · exact fun _ h => h
  · exact bse_unsolved_subset _ _ _

theorem bsb_unsolved_len (s0 : Solver) (id : Nat) :
    (backSubBody s0 id).unsolved_vars.length ≤ s0.unsolved_vars.length := by
  unfold backSubBody
  split
  · exact Nat.le_refl _
  · exact bse_unsolved_len _ _ _

theorem bsb_invalid_mono (s0 : Solver) (id : Nat) (w : Nat)
    (h : w ∈ s0.invalid_rounding) : w ∈ (backSubBody s0 id).invalid_rounding := by
  unfold backSubBody
  split
  · exact h
  · exact bse_invalid_mono _ _ _ _ h

theorem bsb_WF (s0 : Solver) (id : Nat) (h : WFstate s0) : WFstate (backSubBody s0 id) := by
  unfold backSubBody
  split
  · exact h
  · exact bse_WF _ _ _ h

theorem step_solved_mono (s : Solver) (v : Nat) (q : ℚ)
    (h : imGet s.solved_vars v = some q) :
    imGet s.try_back_substitute.solved_vars v = some q := by
  unfold Solver.try_back_substitute
  split
  · exact h
  · exact bsb_solved_mono _ _ _ _ h

theorem step_unsolved_subset (s : Solver) :
    s.try_back_substitute.unsolved_vars ⊆ s.unsolved_vars := by
  unfold Solver.try_back_substitute
  split
  · exact fun _ h => h
  · exact bsb_unsolved_subset _ _

theorem step_unsolved_len (s : Solver) :
    s.try_back_substitute.unsolved_vars.length ≤ s.unsolved_vars.length := by
  unfold Solver.try_back_substitute
  split
  · exact Nat.le_refl _
  · exact bsb_unsolved_len _ _

theorem step_invalid_mono (s : Solver) (w : Nat) (h : w ∈ s.invalid_rounding) :
    w ∈ s.try_back_substitute.invalid_rounding := by
  unfold Solver.try_back_substitute
  split
  · exact h
  · exact bsb_invalid_mono _ _ _ h

theorem step_WF (s : Solver) (h : WFstate s) : WFstate s.try_back_substitute := by
  unfold Solver.try_back_substitute
  split
  · exact h
  · exact bsb_WF _ _ h

/-! ### Monotonicity of the drained work list, by induction on the fuel -/

theorem drain_solved_mono (n : Nat) (s : Solver) (v : Nat) (q : ℚ)
    (h : imGet s.solved_vars v = some q) :
    imGet (drain n s).solved_vars v = some q := by
  induction n generalizing s with
  | zero => exact h
  | succ n ih =>
    unfold drain
    split
    · exact h
    · exact ih _ (step_solved_mono _ _ _ h)

theorem drain_unsolved_len (n : Nat) (s : Solver) :
    (drain n s).unsolved_vars.length ≤ s.unsolved_vars.length := by
  induction n generalizing s with
  | zero => exact Nat.le_refl _
  | succ n ih =>
    unfold drain
    split
    · exact Nat.le_refl _
    · exact Nat.le_trans (ih _) (step_unsolved_len _)

theorem drain_invalid_mono (n : Nat) (s : Solver) (w : Nat)
    (h : w ∈ s.invalid_rounding) : w ∈ (drain n s).invalid_rounding := by
  induction n generalizing s with
  | zero => exact h
  | succ n ih =>
    unfold drain
    split
    · exact h
    · exact ih _ (step_invalid_mono _ _ h)

theorem drain_WF (n : Nat) (s : Solver) (h : WFstate s) : WFstate (drain n s) := by
  induction n generalizing s with
  | zero => exact h
  | succ n ih =>
    unfold drain
    split
    · exact h
    · exact ih _ (step_WF _ h)

theorem drain_stack_nil (n : Nat) (s : Solver) (h : s.back_substitute_stack = []) :
    drain n s = s := by
  cases n with
  | zero => rfl
  | succ n =>
    unfold drain
    rw [if_pos (by rw [h]; rfl)]

/-- When no constraints are stored, draining just pops the stack. -/
theorem drain_constraints_nil (n : Nat) (s : Solver) (h : s.constraints = []) :
    drain n s = { s with back_substitute_stack := s.back_substitute_stack.drop n } := by
  induction n generalizing s with
  | zero => simp [drain]
  | succ n ih =>
    obtain ⟨nv, nc, cs, vtc, sv, uv, st, ic, ir⟩ := s
    simp only at h
    subst h
    cases st with
    | nil => simp [drain]
    | cons id rest =>
      unfold drain
      rw [if_neg (by simp)]
      have hstep : (⟨nv, nc, [], vtc, sv, uv, id :: rest, ic, ir⟩ : Solver).try_back_substitute
          = ⟨nv, nc, [], vtc, sv, uv, rest, ic, ir⟩ := by
        unfold Solver.try_back_substitute backSubBody
        simp [imGet]
      rw [hstep, ih _ rfl]
      simp

/-! ### Exact computation of one step -/

theorem drain_pos (n : Nat) (s : Solver) (hn : s.back_substitute_stack ≠ []) :
    drain (n + 1) s = drain n s.try_back_substitute := by
  conv_lhs => unfold drain
  rw [if_neg (by simpa using hn)]

theorem step_cons (s : Solver) (id : Nat) (rest : List Nat)
    (hst : s.back_substitute_stack = id :: rest) :
    s.try_back_substitute = backSubBody { s with back_substitute_stack := rest } id := by
  unfold Solver.try_back_substitute
  rw [hst]

theorem backSubBody_some (s0 : Solver) (id : Nat) (c0 : LinearExpr)
    (h : imGet s0.constraints id = some c0) :
    backSubBody s0 id = backSubExamine s0 id (c0.simplify s0.solved_vars) := by
  unfold backSubBody
  rw [h]

theorem backSubExamine_single (s0 : Solver) (id : Nat) (coeff : ℚ) (var : Nat) (k : ℚ) :
    backSubExamine s0 id ⟨[(coeff, var)], k⟩ = backSubSingle s0 id coeff var k := by
  unfold backSubExamine
  rw [if_neg (by simp)]

theorem backSubExamine_empty_bad (s0 : Solver) (id : Nat) (k : ℚ)
    (hk : relEqB MEPS k 0 = false) :
    backSubExamine s0 id ⟨[], k⟩ =
      { s0 with
          inconsistent_constraints := isInsert s0.inconsistent_constraints id,
          constraints := imSwapRemove s0.constraints id } := by
  unfold backSubExamine
  rw [if_pos (by simp [hk])]

theorem backSubSingle_none (s0 : Solver) (id : Nat) (coeff : ℚ) (var : Nat) (k : ℚ)
    (hv : imGet s0.solved_vars var = none) :
    backSubSingle s0 id coeff var k =
      { s0 with
          solved_vars := imInsert s0.solved_vars var (roundq (-k / coeff)),
          unsolved_vars := isSwapRemove s0.unsolved_vars var,
          invalid_rounding :=
            if relEqB EPSILON (-k / coeff) (roundq (-k / coeff)) then s0.invalid_rounding
            else isInsert s0.invalid_rounding var,
          constraints := imSwapRemove s0.constraints id,
          back_substitute_stack :=
            (vtcGet s0.var_to_constraints var).reverse ++ s0.back_substitute_stack } := by
  unfold backSubSingle
  simp only [hv, Solver.solve_var]
  cases hb : relEqB EPSILON (-k / coeff) (roundq (-k / coeff)) with
  | true => simp
  | false => simp


theorem constrain_first_step (s : Solver) (e : LinearExpr) :
    (s.constrain_eq0 e).2 =
      drain (s.back_substitute_stack.length +
        (imInsert s.constraints s.next_constraint e).length *
          (vtcTotal (e.coeffs.foldl (fun m cv => vtcInsertId m cv.2 s.next_constraint)
            s.var_to_constraints) + 1))
        (backSubBody
          { s with
              next_constraint := s.next_constraint + 1,
              var_to_constraints := e.coeffs.foldl
                (fun m cv => vtcInsertId m cv.2 s.next_constraint) s.var_to_constraints,
              constraints := imInsert s.constraints s.next_constraint e }
          s.next_constraint) := by
  unfold Solver.constrain_eq0
  simp only []
  have hfuel : drainFuel
      { s with
          next_constraint := s.next_constraint + 1,
          var_to_constraints := e.coeffs.foldl
            (fun m cv => vtcInsertId m cv.2 s.next_constraint) s.var_to_constraints,
          constraints := imInsert s.constraints s.next_constraint e,
          back_substitute_stack := s.next_constraint :: s.back_substitute_stack } =
      (s.back_substitute_stack.length +
        (imInsert s.constraints s.next_constraint e).length *
          (vtcTotal (e.coeffs.foldl (fun m cv => vtcInsertId m cv.2 s.next_constraint)
            s.var_to_constraints) + 1)) + 1 := by
    simp only [drainFuel, List.length_cons]
    omega
  rw [hfuel, drain_pos _ _ (by simp)]
  rw [step_cons _ s.next_constraint s.back_substitute_stack rfl]


theorem constrain_chain_step (s : Solver) (e : LinearExpr) (cf : ℚ) (v : Nat) (k : ℚ)
    (hc : s.constraints = []) (hst : s.back_substitute_stack = [])
    (hsimp : e.simplify s.solved_vars = ⟨[(cf, v)], k⟩)
    (hv : imGet s.solved_vars v = none) :
    (s.constrain_eq0 e).2 =
      { s with
          next_constraint := s.next_constraint + 1,
          var_to_constraints := e.coeffs.foldl
            (fun m cv => vtcInsertId m cv.2 s.next_constraint) s.var_to_constraints,
          constraints := [],
          back_substitute_stack := [],
          solved_vars := imInsert s.solved_vars v (roundq (-k / cf)),
          unsolved_vars := isSwapRemove s.unsolved_vars v,
          invalid_rounding :=
            if relEqB EPSILON (-k / cf) (roundq (-k / cf)) then s.invalid_rounding
            else isInsert s.invalid_rounding v } := by
  rw [constrain_first_step, hc, hst]
  set t : Solver := { s with
      next_constraint := s.next_constraint + 1,
      var_to_constraints := e.coeffs.foldl
        (fun m cv => vtcInsertId m cv.2 s.next_constraint) s.var_to_constraints,
      constraints := imInsert [] s.next_constraint e,
      back_substitute_stack := ([] : List Nat) } with ht
  have hget : imGet t.constraints s.next_constraint = some e := by
    show imGet [(s.next_constraint, e)] s.next_constraint = some e
    simp [imGet]
  rw [backSubBody_some t s.next_constraint e hget]
  have hsimp2 : e.simplify t.solved_vars = ⟨[(cf, v)], k⟩ := hsimp
  rw [hsimp2, backSubExamine_single]
  have hv2 : imGet t.solved_vars v = none := hv
  rw [backSubSingle_none t s.next_constraint cf v k hv2]
  have hcon : imSwapRemove t.constraints s.next_constraint = [] :=
    imSwapRemove_singleton s.next_constraint e
  rw [drain_constraints_nil _ _ (by exact hcon)]
  have hlen : ((vtcGet t.var_to_constraints v).reverse ++ t.back_substitute_stack).length ≤
      ([] : List Nat).length + (imInsert ([] : List (Nat × LinearExpr)) s.next_constraint e).length *
        (vtcTotal (e.coeffs.foldl (fun m cv => vtcInsertId m cv.2 s.next_constraint)
          s.var_to_constraints) + 1) := by
    show ((vtcGet _ v).reverse ++ ([] : List Nat)).length ≤ 0 + 1 * (_ + 1)
    simp only [List.append_nil, List.length_reverse, Nat.zero_add, Nat.one_mul]
    have := vtcGet_length_le_total (e.coeffs.foldl
      (fun m cv => vtcInsertId m cv.2 s.next_constraint) s.var_to_constraints) v
    omega
  rw [show ∀ N ls, List.drop N ls = ls.drop N from fun _ _ => rfl]
  simp only [hcon, List.drop_eq_nil_of_le hlen]


/-- Registering a constraint that simplifies to zero coefficients and a
residual constant beyond tolerance flags the new id inconsistent and leaves
the stored constraints and solved values unchanged. -/
theorem constrain_inconsistent (s : Solver) (e : LinearExpr) (k : ℚ)
    (hst : s.back_substitute_stack = [])
    (hkeys : ∀ p ∈ s.constraints, p.1 < s.next_constraint)
    (hsimp : e.simplify s.solved_vars = ⟨[], k⟩)
    (hk : relEqB MEPS k 0 = false) :
    (s.constrain_eq0 e).2 =
      { s with
          next_constraint := s.next_constraint + 1,
          var_to_constraints := e.coeffs.foldl
            (fun m cv => vtcInsertId m cv.2 s.next_constraint) s.var_to_constraints,
          inconsistent_constraints := isInsert s.inconsistent_constraints s.next_constraint } := by
  have hne : ∀ p ∈ s.constraints, p.1 ≠ s.next_constraint := by
    intro p hp
    have := hkeys p hp
    omega
  rw [constrain_first_step, hst, imInsert_eq_append _ _ _ hne]
  set t : Solver := { s with
      next_constraint := s.next_constraint + 1,
      var_to_constraints := e.coeffs.foldl
        (fun m cv => vtcInsertId m cv.2 s.next_constraint) s.var_to_constraints,
      constraints := s.constraints ++ [(s.next_constraint, e)],
      back_substitute_stack := ([] : List Nat) } with ht
  have hget : imGet t.constraints s.next_constraint = some e :=
    imGet_append_last s.constraints s.next_constraint e hne
  rw [backSubBody_some t s.next_constraint e hget]
  have hsimp2 : e.simplify t.solved_vars = ⟨[], k⟩ := hsimp
  rw [hsimp2, backSubExamine_empty_bad t s.next_constraint k hk]
  have hrem : imSwapRemove t.constraints s.next_constraint = s.constraints :=
    imSwapRemove_append s.constraints s.next_constraint e hne
  rw [drain_stack_nil _ _ (by show t.back_substitute_stack = []; rfl)]
  simp only [hrem]

/-- Registering a constraint that simplifies to a single unsolved variable
solves it at once (to the grid-rounded implied value), flags it when rounding
moved the value beyond tolerance, and does not grow the unsolved set beyond
the removal of that variable. -/
theorem constrain_single_mono (s : Solver) (e : LinearExpr) (cf : ℚ) (v : Nat) (k : ℚ)
    (hsimp : e.simplify s.solved_vars = ⟨[(cf, v)], k⟩)
    (hv : imGet s.solved_vars v = none) :
    imGet (s.constrain_eq0 e).2.solved_vars v = some (roundq (-k / cf)) ∧
    (relEqB EPSILON (-k / cf) (roundq (-k / cf)) = false →
      v ∈ (s.constrain_eq0 e).2.invalid_rounding) ∧
    (s.constrain_eq0 e).2.unsolved_vars.length ≤ (isSwapRemove s.unsolved_vars v).length := by
  rw [constrain_first_step]
  set t : Solver := { s with
      next_constraint := s.next_constraint + 1,
      var_to_constraints := e.coeffs.foldl
        (fun m cv => vtcInsertId m cv.2 s.next_constraint) s.var_to_constraints,
      constraints := imInsert s.constraints s.next_constraint e } with ht
  have hget : imGet t.constraints s.next_constraint = some e :=
    imGet_imInsert_self s.constraints s.next_constraint e
  rw [backSubBody_some t s.next_constraint e hget]
  have hsimp2 : e.simplify t.solved_vars = ⟨[(cf, v)], k⟩ := hsimp
  rw [hsimp2, backSubExamine_single]
  have hv2 : imGet t.solved_vars v = none := hv
  rw [backSubSingle_none t s.next_constraint cf v k hv2]
  refine ⟨?_, ?_, ?_⟩
  · apply drain_solved_mono
    exact imGet_imInsert_self _ _ _
  · intro hflag
    apply drain_invalid_mono
    show v ∈ (if relEqB EPSILON (-k / cf) (roundq (-k / cf)) = true then t.invalid_rounding
      else isInsert t.invalid_rounding v)
    rw [hflag]
    simp only [Bool.false_eq_true, if_false]
    exact mem_isInsert_self _ _
  · exact drain_unsolved_len _ _

/-- `constrain_eq0` preserves well-formedness. -/
theorem constrain_WF (s : Solver) (e : LinearExpr) (h : WFstate s) :
    WFstate (s.constrain_eq0 e).2 := by
  rw [constrain_first_step]
  apply drain_WF
  apply bsb_WF
  exact ⟨h.1, h.2⟩

/-- `constrain_eq0` never unsolves a solved variable or changes its value. -/
theorem constrain_solved_mono (s : Solver) (e : LinearExpr) (v : Nat) (q : ℚ)
    (h : imGet s.solved_vars v = some q) :
    imGet (s.constrain_eq0 e).2.solved_vars v = some q := by
  rw [constrain_first_step]
  apply drain_solved_mono
  apply bsb_solved_mono
  exact h

theorem constrain_invalid_mono (s : Solver) (e : LinearExpr) (w : Nat)
    (h : w ∈ s.invalid_rounding) : w ∈ (s.constrain_eq0 e).2.invalid_rounding := by
  rw [constrain_first_step]
  apply drain_invalid_mono
  apply bsb_invalid_mono
  exact h

theorem constrain_unsolved_len (s : Solver) (e : LinearExpr) :
    (s.constrain_eq0 e).2.unsolved_vars.length ≤ s.unsolved_vars.length := by
  rw [constrain_first_step]
  exact Nat.le_trans (drain_unsolved_len _ _) (bsb_unsolved_len _ _)


/-! ### Invariants of the batched solve pass -/

theorem solve_var_WF (s : Solver) (var : Nat) (val : ℚ) (h : WFstate s) :
    WFstate (s.solve_var var val) := by
  obtain ⟨hnd, hdisj⟩ := h
  unfold Solver.solve_var
  refine ⟨isSwapRemove_nodup _ _ hnd, ?_⟩
  intro w hw
  have hwin : w ∈ s.unsolved_vars := isSwapRemove_subset _ _ hw
  by_cases hwv : w = var
  · subst hwv
    exact absurd hw (not_mem_isSwapRemove_self _ _ hnd hwin)
  · rw [imGet_imInsert_ne _ _ _ _ hwv]
    exact hdisj w hwin

theorem solve_var_unsolved_len (s : Solver) (var : Nat) (val : ℚ) :
    (s.solve_var var val).unsolved_vars.length ≤ s.unsolved_vars.length :=
  isSwapRemove_length_le _ _

theorem solveCommit_WF (s : Solver) (unsolved : List Nat) (nVars : Nat)
    (red : List (List ℚ)) (h : WFstate s) : WFstate (solveCommit s unsolved nVars red) := by
  unfold solveCommit
  apply foldl_inv WFstate _ _ _ h
  intro acc p _ hacc
  split
  · exact solve_var_WF _ _ _ hacc
  · exact hacc

theorem solveCommit_unsolved_len (s : Solver) (unsolved : List Nat) (nVars : Nat)
    (red : List (List ℚ)) :
    (solveCommit s unsolved nVars red).unsolved_vars.length ≤ s.unsolved_vars.length := by
  unfold solveCommit
  generalize unsolved.enum = l
  induction l generalizing s with
  | nil => exact Nat.le_refl _
  | cons p l ih =>
    simp only [List.foldl_cons]
    refine Nat.le_trans (ih _) ?_
    split
    · exact solve_var_unsolved_len _ _ _
    · exact Nat.le_refl _

theorem solveResimplify_WF (s1 : Solver) (h : WFstate s1) : WFstate (solveResimplify s1) := h

theorem solveRound_WF (s2 : Solver) (h : WFstate s2) : WFstate (solveRound s2) := by
  unfold solveRound
  apply foldl_inv WFstate _ _ _ h
  intro acc i _ hacc
  obtain ⟨hnd, hdisj⟩ := hacc
  cases hg : imGet acc.solved_vars i with
  | none => exact ⟨hnd, hdisj⟩
  | some val =>
    simp only [hg]
    split
    · exact ⟨hnd, hdisj⟩
    · refine ⟨hnd, ?_⟩
      intro w hw
      have hwi : w ≠ i := by
        intro hwi
        rw [hwi] at hw
        have := hdisj i hw
        rw [this] at hg
        exact Option.noConfusion hg
      rw [imGet_imInsert_ne _ _ _ _ hwi]
      exact hdisj w hw

theorem solveRound_unsolved (s2 : Solver) :
    (solveRound s2).unsolved_vars = s2.unsolved_vars := by
  unfold solveRound
  generalize List.range s2.next_var = l
  induction l generalizing s2 with
  | nil => rfl
  | cons i l ih =>
    simp only [List.foldl_cons]
    refine Eq.trans (ih _) ?_
    cases hg : imGet s2.solved_vars i with
    | none => simp only [hg]
    | some val =>
      simp only [hg]
      split
      · rfl
      · rfl

theorem solveRetain_WF (s3 : Solver) (h : WFstate s3) : WFstate (solveRetain s3) := h

theorem solve_WF (s : Solver) (h : WFstate s) : WFstate s.solve := by
  unfold Solver.solve
  split
  · exact h
  · unfold solveResolve
    split
    · exact h
    · exact solveRetain_WF _ (solveRound_WF _ (solveResimplify_WF _ (solveCommit_WF _ _ _ _ h)))

theorem solveRetain_unsolved (t : Solver) :
    (solveRetain t).unsolved_vars = t.unsolved_vars := rfl

theorem solveResimplify_unsolved (t : Solver) :
    (solveResimplify t).unsolved_vars = t.unsolved_vars := rfl

theorem solve_unsolved_len (s : Solver) :
    s.solve.unsolved_vars.length ≤ s.unsolved_vars.length := by
  unfold Solver.solve
  split
  · exact Nat.le_refl _
  · unfold solveResolve
    split
    · exact Nat.le_refl _
    · rw [solveRetain_unsolved, solveRound_unsolved, solveResimplify_unsolved]
      exact solveCommit_unsolved_len _ _ _ _

theorem solve_of_no_constraints (s : Solver) (h : s.constraints = []) : s.solve = s := by
  unfold Solver.solve
  rw [if_pos (Or.inr (by rw [h]; rfl))]


/-! ### Termination and completeness of force_solution -/

theorem pin_step (s : Solver) (v : Nat) (rest : List Nat)
    (hWF : WFstate s) (huv : s.unsolved_vars = v :: rest) :
    ((s.constrain_eq0 ⟨[(1, v)], 0⟩).2.solve).unsolved_vars.length < s.unsolved_vars.length ∧
    WFstate ((s.constrain_eq0 ⟨[(1, v)], 0⟩).2.solve) := by
  have hvmem : v ∈ s.unsolved_vars := by rw [huv]; exact List.mem_cons_self _ _
  have hv : imGet s.solved_vars v = none := hWF.2 v hvmem
  have hsimp : (⟨[(1, v)], 0⟩ : LinearExpr).simplify s.solved_vars = ⟨[(1, v)], 0⟩ := by
    unfold LinearExpr.simplify
    simp [hv, (by decide : relEqB EPSILON (1 : ℚ) 0 = false)]
  constructor
  · have h1 := (constrain_single_mono s ⟨[(1, v)], 0⟩ 1 v 0 hsimp hv).2.2
    have h2 := isSwapRemove_length_lt s.unsolved_vars v hvmem
    have h3 := solve_unsolved_len (s.constrain_eq0 ⟨[(1, v)], 0⟩).2
    omega
  · exact solve_WF _ (constrain_WF _ _ hWF)

theorem force_fuel_solves (n : Nat) : ∀ s : Solver, WFstate s →
    s.unsolved_vars.length ≤ n →
    (Solver.force_solution_fuel n s).fully_solved = true := by
  induction n with
  | zero =>
    intro s _ hlen
    have huv : s.unsolved_vars = [] := List.length_eq_zero.1 (Nat.le_zero.1 hlen)
    show s.fully_solved = true
    unfold Solver.fully_solved
    rw [huv]
    rfl
  | succ n ih =>
    intro s hWF hlen
    unfold Solver.force_solution_fuel
    split
    · assumption
    · rename_i hns
      split
      · rename_i huv
        exact absurd (by unfold Solver.fully_solved; rw [huv]; rfl) hns
      · rename_i v rest huv
        obtain ⟨hlt, hWF2⟩ := pin_step s v rest hWF huv
        exact ih _ hWF2 (by omega)


/-! ### Chains of single-variable constraints -/

theorem simplify_coeffs_sublist (e : LinearExpr) (t : List (Nat × ℚ)) :
    (e.simplify t).coeffs.Sublist e.coeffs := by
  unfold LinearExpr.simplify
  exact List.filter_sublist _

theorem simplify_var_mem (e : LinearExpr) (t : List (Nat × ℚ)) (cf : ℚ) (v : Nat) (k : ℚ)
    (h : e.simplify t = ⟨[(cf, v)], k⟩) : v ∈ e.varsOf := by
  have hmem : (cf, v) ∈ (e.simplify t).coeffs := by rw [h]; exact List.mem_singleton.2 rfl
  have hmem2 : (cf, v) ∈ e.coeffs := (simplify_coeffs_sublist e t).subset hmem
  exact List.mem_map.2 ⟨(cf, v), hmem2, rfl⟩

theorem registerAll_solved_mono (es : List LinearExpr) : ∀ (s : Solver) (v : Nat) (q : ℚ),
    imGet s.solved_vars v = some q → imGet (s.registerAll es).solved_vars v = some q := by
  induction es with
  | nil => intro s v q h; exact h
  | cons e es ih =>
    intro s v q h
    show imGet ((((s.constrain_eq0 e).2)).registerAll es).solved_vars v = some q
    exact ih _ _ _ (constrain_solved_mono s e v q h)

theorem chain_solves (s : Solver) (es : List LinearExpr) (vs : List (Nat × ℚ))
    (hch : Chain s es vs) : s.constraints = [] → s.back_substitute_stack = [] →
    (∀ pv ∈ vs, (s.registerAll es).value_of pv.1 = some pv.2) ∧
    (s.registerAll es).constraints = [] ∧
    (s.registerAll es).back_substitute_stack = [] ∧
    (∀ w ∈ s.unsolved_vars, (∀ e ∈ es, w ∉ e.varsOf) →
      w ∈ (s.registerAll es).unsolved_vars) := by
  induction hch with
  | nil s =>
    intro hc hst
    exact ⟨by simp, hc, hst, fun w hw _ => hw⟩
  | cons s e es cf v k vs hsimp hv hrest ih =>
    intro hc hst
    have hstep := constrain_chain_step s e cf v k hc hst hsimp hv
    have hreg : s.registerAll (e :: es) = ((s.constrain_eq0 e).2).registerAll es := by
      simp [Solver.registerAll]
    have hc' : (s.constrain_eq0 e).2.constraints = [] := by rw [hstep]
    have hst' : (s.constrain_eq0 e).2.back_substitute_stack = [] := by rw [hstep]
    obtain ⟨ihv, ihc, ihst, ihw⟩ := ih hc' hst'
    refine ⟨?_, by rw [hreg]; exact ihc, by rw [hreg]; exact ihst, ?_⟩
    · intro pv hpv
      rcases List.mem_cons.1 hpv with hhd | htl
      · subst hhd
        rw [hreg]
        apply registerAll_solved_mono
        rw [hstep]
        show imGet (imInsert s.solved_vars v (roundq (-k / cf))) v = some (roundq (-k / cf))
        exact imGet_imInsert_self _ _ _
      · rw [hreg]
        exact ihv pv htl
    · intro w hw hnm
      rw [hreg]
      have hvvars : v ∈ e.varsOf := simplify_var_mem e s.solved_vars cf v k hsimp
      have hwne : w ≠ v := by
        intro hwv
        exact hnm e (List.mem_cons_self _ _) (hwv ▸ hvvars)
      have hw' : w ∈ (s.constrain_eq0 e).2.unsolved_vars := by
        rw [hstep]
        show w ∈ isSwapRemove s.unsolved_vars v
        exact mem_isSwapRemove_of_ne _ _ _ hw hwne
      exact ihw w hw' (fun e' he' => hnm e' (List.mem_cons_of_mem _ he'))


theorem relEqB_false_iff (eps a b : ℚ) :
    relEqB eps a b = false ↔ ¬(|a - b| ≤ eps) ∧ ¬(|a - b| ≤ max |a| |b| * MEPS) := by
  unfold relEqB
  rw [Bool.or_eq_false_iff, decide_eq_false_iff_not, decide_eq_false_iff_not]

theorem MEPS_pos : (0 : ℚ) < MEPS := by unfold MEPS; norm_num

theorem MEPS_lt_one : MEPS < (1 : ℚ) := by unfold MEPS; norm_num

theorem MEPS_le_EPSILON : MEPS ≤ EPSILON := by unfold MEPS EPSILON; norm_num

theorem EPSILON_pos : (0 : ℚ) < EPSILON := by unfold EPSILON; norm_num

/-- A difference beyond the `EPSILON` tolerance is also beyond the default
(machine-epsilon) tolerance used by the residual check. -/
theorem relEqB_shift (v w k : ℚ) (hk : k = v - w)
    (h : relEqB EPSILON v w = false) : relEqB MEPS k 0 = false := by
  subst hk
  rw [relEqB_false_iff] at h ⊢
  obtain ⟨h1, h2⟩ := h
  have hfar : EPSILON < |v - w| := lt_of_not_le h1
  have hpos : 0 < |v - w| := lt_trans EPSILON_pos hfar
  constructor
  · intro habs
    rw [sub_zero] at habs
    exact h1 (le_trans habs (le_trans MEPS_le_EPSILON (le_refl _)))
  · intro habs
    rw [sub_zero, abs_zero, max_eq_left (abs_nonneg _)] at habs
    have hlt : |v - w| * MEPS < |v - w| :=
      mul_lt_of_lt_one_right hpos MEPS_lt_one
    exact absurd (lt_of_le_of_lt habs hlt) (lt_irrefl _)

theorem relEqB_one_zero : relEqB EPSILON (1 : ℚ) 0 = false := by decide

theorem simplify_single_solved (t : List (Nat × ℚ)) (x : Nat) (v w : ℚ)
    (hx : imGet t x = some v) :
    ∃ k, (⟨[(1, x)], -w⟩ : LinearExpr).simplify t = ⟨[], k⟩ ∧ k = v - w := by
  refine ⟨-w + (0 + 1 * v), ?_, by ring⟩
  show LinearExpr.mk
      (List.filter (fun cv => !(relEqB EPSILON cv.1 0) && (imGet t cv.2).isNone) [((1 : ℚ), x)])
      (-w + (List.filterMap (fun cv =>
          if relEqB EPSILON cv.1 0 then some 0
          else match imGet t cv.2 with
            | some s => some (cv.1 * s)
            | none => none) [((1 : ℚ), x)]).foldl (· + ·) 0)
      = ⟨[], -w + (0 + 1 * v)⟩
  have hpred : ¬((fun cv : ℚ × Nat => !(relEqB EPSILON cv.1 0) && (imGet t cv.2).isNone)
      ((1 : ℚ), x) = true) := by
    show ¬((!(relEqB EPSILON (1 : ℚ) 0) && (imGet t x).isNone) = true)
    rw [relEqB_one_zero, hx]
    exact Bool.false_ne_true
  have hf : (fun cv : ℚ × Nat =>
      if relEqB EPSILON cv.1 0 then some (0 : ℚ)
      else match imGet t cv.2 with
        | some s => some (cv.1 * s)
        | none => none) ((1 : ℚ), x) = some (1 * v) := by
    show (if relEqB EPSILON (1 : ℚ) 0 then some (0 : ℚ)
      else match imGet t x with
        | some s => some ((1 : ℚ) * s)
        | none => none) = some (1 * v)
    rw [relEqB_one_zero, hx]
    rfl
  rw [@List.filterMap_cons_some (ℚ × Nat) ℚ
      (fun cv => if relEqB EPSILON cv.1 0 then some 0
        else match imGet t cv.2 with
          | some s => some (cv.1 * s)
          | none => none) ((1 : ℚ), x) [] (1 * v) hf,
    List.filterMap_nil,
    @List.filter_cons_of_neg (ℚ × Nat)
      (fun cv => !(relEqB EPSILON cv.1 0) && (imGet t cv.2).isNone) ((1 : ℚ), x) [] hpred,
    List.filter_nil, List.foldl_cons, List.foldl_nil]

/-- C8: `LinearExpr::simplify` is idempotent: applying it twice with the same
solved-variable table produces exactly the same coefficient list and constant
as applying it once. -/
theorem simplify_idempotent (e : LinearExpr) (t : List (Nat × ℚ)) :
    (e.simplify t).simplify t = e.simplify t := by
  have hcoeffs : (e.simplify t).coeffs = e.coeffs.filter
      (fun cv => !(relEqB EPSILON cv.1 0) && (imGet t cv.2).isNone) := rfl
  have hall : ∀ cv ∈ (e.simplify t).coeffs,
      (!(relEqB EPSILON cv.1 0) && (imGet t cv.2).isNone) = true := by
    intro cv hcv
    rw [hcoeffs] at hcv
    exact (List.mem_filter.1 hcv).2
  have h1 : (e.simplify t).coeffs.filter
      (fun cv => !(relEqB EPSILON cv.1 0) && (imGet t cv.2).isNone) = (e.simplify t).coeffs :=
    List.filter_eq_self.2 hall
  have h2 : (e.simplify t).coeffs.filterMap (fun cv =>
      if relEqB EPSILON cv.1 0 then some (0 : ℚ)
      else match imGet t cv.2 with
        | some s => some (cv.1 * s)
        | none => none) = [] := by
    rw [List.filterMap_eq_nil_iff]
    intro cv hcv
    have h := hall cv hcv
    rw [Bool.and_eq_true, Bool.not_eq_true'] at h
    obtain ⟨hr, hn⟩ := h
    rw [if_neg (by rw [hr]; exact Bool.false_ne_true)]
    cases hg : imGet t cv.2 with
    | some s =>
      rw [hg] at hn
      exact absurd hn (by simp)
    | none => rfl
  have hstep : (e.simplify t).simplify t =
      LinearExpr.mk
        ((e.simplify t).coeffs.filter
          (fun cv => !(relEqB EPSILON cv.1 0) && (imGet t cv.2).isNone))
        ((e.simplify t).constant + ((e.simplify t).coeffs.filterMap (fun cv =>
          if relEqB EPSILON cv.1 0 then some (0 : ℚ)
          else match imGet t cv.2 with
            | some s => some (cv.1 * s)
            | none => none)).foldl (· + ·) 0) := rfl
  rw [hstep, h1, h2]
  show LinearExpr.mk (e.simplify t).coeffs ((e.simplify t).constant + 0) = e.simplify t
  rw [add_zero]


theorem lincombOpt_isSome (s : Solver) (e : LinearExpr)
    (h : ∀ cv ∈ e.coeffs, (imGet s.solved_vars cv.2).isSome = true) :
    ∃ t, s.lincombOpt e = some t := by
  unfold Solver.lincombOpt
  suffices hgen : ∀ (l : List (ℚ × Nat)) (a : ℚ),
      (∀ cv ∈ l, (imGet s.solved_vars cv.2).isSome = true) →
      ∃ t, l.foldl (fun acc cv =>
        match acc, imGet s.solved_vars cv.2 with
        | some a, some val => some (a + val * cv.1)
        | _, _ => none) (some a) = some t by
    exact hgen e.coeffs 0 h
  intro l
  induction l with
  | nil => exact fun a _ => ⟨a, rfl⟩
  | cons cv l ih =>
    intro a hall
    have hcv := hall cv (List.mem_cons_self _ _)
    cases hg : imGet s.solved_vars cv.2 with
    | none => rw [hg] at hcv; exact absurd hcv (by simp)
    | some val =>
      simp only [List.foldl_cons, hg]
      exact ih (a + val * cv.1) (fun q hq => hall q (List.mem_cons_of_mem _ hq))

/-- C10: when every variable referenced by a linear expression is solved,
`eval_expr` returns `Some` of the grid-rounded (step 0.1) value of the linear
combination plus constant, and the returned value is an integer multiple of
the rounding step. -/
theorem eval_expr_rounds_to_grid (s : Solver) (e : LinearExpr)
    (h : ∀ cv ∈ e.coeffs, (imGet s.solved_vars cv.2).isSome = true) :
    ∃ t, s.lincombOpt e = some t ∧
      s.eval_expr e = some (roundq (t + e.constant)) ∧
      ∃ m : ℤ, roundq (t + e.constant) = (m : ℚ) * ROUND_STEP := by
  obtain ⟨t, ht⟩ := lincombOpt_isSome s e h
  refine ⟨t, ht, ?_, froundZ ((t + e.constant) * INV_ROUND_STEP), rfl⟩
  unfold Solver.eval_expr
  rw [ht]
  rfl

/-- Witness for C10: in a solver with `x = 5` solved, evaluating
`2·x + 1/4` yields `Some 10.3` (the grid-rounded value of `10.25`). -/
theorem eval_expr_rounds_to_grid_witness :
    (∃ t, ((mkSolverVars 3).registerAll [⟨[(1, 0)], -5⟩]).lincombOpt ⟨[(2, 0)], 1/4⟩ = some t ∧
      ((mkSolverVars 3).registerAll [⟨[(1, 0)], -5⟩]).eval_expr ⟨[(2, 0)], 1/4⟩ =
        some (roundq (t + (⟨[(2, 0)], 1/4⟩ : LinearExpr).constant)) ∧
      ∃ m : ℤ, roundq (t + (⟨[(2, 0)], 1/4⟩ : LinearExpr).constant) = (m : ℚ) * ROUND_STEP) ∧
    ((mkSolverVars 3).registerAll [⟨[(1, 0)], -5⟩]).eval_expr ⟨[(2, 0)], 1/4⟩ =
      some (103/10) :=
  ⟨eval_expr_rounds_to_grid ((mkSolverVars 3).registerAll [⟨[(1, 0)], -5⟩])
    ⟨[(2, 0)], 1/4⟩ (by decide), by decide⟩


/-- C1: after back-substitution stalls, `solve` commits exactly the variables
uniquely determined by the pending constraints.  In the coupled system
`x + y = 10, x − y = 4` with a third, unconstrained variable `z`, solving
commits `x = 7` and `y = 3` and leaves `z` unsolved; in the under-determined
width-only system `x1 − x0 = 50`, no variable is committed, both stay
unsolved, the width constraint stays pending, and nothing is flagged
inconsistent. -/
theorem solve_commits_exactly_determined :
    ((((mkSolverVars 3).registerAll
        [⟨[(1, 0), (1, 1)], -10⟩, ⟨[(1, 0), (-1, 1)], -4⟩]).solve).value_of 0 = some 7 ∧
     (((mkSolverVars 3).registerAll
        [⟨[(1, 0), (1, 1)], -10⟩, ⟨[(1, 0), (-1, 1)], -4⟩]).solve).value_of 1 = some 3 ∧
     (((mkSolverVars 3).registerAll
        [⟨[(1, 0), (1, 1)], -10⟩, ⟨[(1, 0), (-1, 1)], -4⟩]).solve).value_of 2 = none ∧
     (((mkSolverVars 3).registerAll
        [⟨[(1, 0), (1, 1)], -10⟩, ⟨[(1, 0), (-1, 1)], -4⟩]).solve).unsolved_vars = [2] ∧
     (((mkSolverVars 3).registerAll
        [⟨[(1, 0), (1, 1)], -10⟩, ⟨[(1, 0), (-1, 1)], -4⟩]).solve).inconsistent_constraints
        = []) ∧
    ((((mkSolverVars 2).registerAll [⟨[(1, 1), (-1, 0)], -50⟩]).solve).value_of 0 = none ∧
     (((mkSolverVars 2).registerAll [⟨[(1, 1), (-1, 0)], -50⟩]).solve).value_of 1 = none ∧
     (((mkSolverVars 2).registerAll [⟨[(1, 1), (-1, 0)], -50⟩]).solve).unsolved_vars = [0, 1] ∧
     (imGet (((mkSolverVars 2).registerAll [⟨[(1, 1), (-1, 0)], -50⟩]).solve).constraints 0).isSome
        = true ∧
     (((mkSolverVars 2).registerAll [⟨[(1, 1), (-1, 0)], -50⟩]).solve).inconsistent_constraints
        = []) := by
  decide

/-- Counterexample to C4 as stated: the fully-determined, uniquely solvable
constraint set `{x = 10.04, y − x = 0.01, y = 10.05}` (exact solution
`x = 10.04, y = 10.05`) yields `x = y = 10.0` when `x`'s constraint is
registered first but `x = y = 10.1` when `y`'s constraint is registered
first, because each intermediate back-substituted commitment is grid-rounded;
the two results differ by `0.1`, far beyond the `EPSILON` tolerance. -/
theorem order_dependence_counterexample :
    (((mkSolverVars 2).registerAll
      [⟨[(1, 0)], -(251/25 : ℚ)⟩, ⟨[(1, 1), (-1, 0)], -(1/100 : ℚ)⟩,
       ⟨[(1, 1)], -(201/20 : ℚ)⟩]).solve).value_of 0 = some 10 ∧
    (((mkSolverVars 2).registerAll
      [⟨[(1, 0)], -(251/25 : ℚ)⟩, ⟨[(1, 1), (-1, 0)], -(1/100 : ℚ)⟩,
       ⟨[(1, 1)], -(201/20 : ℚ)⟩]).solve).value_of 1 = some 10 ∧
    (((mkSolverVars 2).registerAll
      [⟨[(1, 1)], -(201/20 : ℚ)⟩, ⟨[(1, 1), (-1, 0)], -(1/100 : ℚ)⟩,
       ⟨[(1, 0)], -(251/25 : ℚ)⟩]).solve).value_of 0 = some (101/10) ∧
    (((mkSolverVars 2).registerAll
      [⟨[(1, 1)], -(201/20 : ℚ)⟩, ⟨[(1, 1), (-1, 0)], -(1/100 : ℚ)⟩,
       ⟨[(1, 0)], -(251/25 : ℚ)⟩]).solve).value_of 1 = some (101/10) ∧
    relEqB EPSILON 10 (101/10) = false := by
  decide

/-- C4 (amended): registration order can change the final solved values of a
fully-determined constraint set when grid rounding moves an intermediate
back-substituted commitment (the set `{x = 10.04, y − x = 0.01, y = 10.05}`
solves to `10.0` or `10.1` depending on order); for the fixed,
fully-determined constraint set `{x = 5, y + z − x = 5, y − z = 4}`, whose
committed values stay on the rounding grid, registering the constraints in
any of the six possible orders and then solving yields the identical solved
values `x = 5, y = 7, z = 3`. -/
theorem solve_order_independent (p : List LinearExpr)
    (hp : p ∈ ([[⟨[(1, 0)], -5⟩, ⟨[(1, 1), (1, 2), (-1, 0)], -5⟩, ⟨[(1, 1), (-1, 2)], -4⟩],
        [⟨[(1, 0)], -5⟩, ⟨[(1, 1), (-1, 2)], -4⟩, ⟨[(1, 1), (1, 2), (-1, 0)], -5⟩],
        [⟨[(1, 1), (1, 2), (-1, 0)], -5⟩, ⟨[(1, 0)], -5⟩, ⟨[(1, 1), (-1, 2)], -4⟩],
        [⟨[(1, 1), (1, 2), (-1, 0)], -5⟩, ⟨[(1, 1), (-1, 2)], -4⟩, ⟨[(1, 0)], -5⟩],
        [⟨[(1, 1), (-1, 2)], -4⟩, ⟨[(1, 0)], -5⟩, ⟨[(1, 1), (1, 2), (-1, 0)], -5⟩],
        [⟨[(1, 1), (-1, 2)], -4⟩, ⟨[(1, 1), (1, 2), (-1, 0)], -5⟩, ⟨[(1, 0)], -5⟩]] :
      List (List LinearExpr))) :
    (((mkSolverVars 3).registerAll p).solve).value_of 0 = some 5 ∧
    (((mkSolverVars 3).registerAll p).solve).value_of 1 = some 7 ∧
    (((mkSolverVars 3).registerAll p).solve).value_of 2 = some 3 := by
  revert p
  decide

/-- Witness for C4 (amended): the registration order
`{y − z = 4, x = 5, y + z − x = 5}` yields exactly `x = 5, y = 7, z = 3`. -/
theorem solve_order_independent_witness :
    ((((mkSolverVars 3).registerAll
      [⟨[(1, 1), (-1, 2)], -4⟩, ⟨[(1, 0)], -5⟩, ⟨[(1, 1), (1, 2), (-1, 0)], -5⟩]).solve).value_of 0
        = some 5) ∧
    ((((mkSolverVars 3).registerAll
      [⟨[(1, 1), (-1, 2)], -4⟩, ⟨[(1, 0)], -5⟩, ⟨[(1, 1), (1, 2), (-1, 0)], -5⟩]).solve).value_of 1
        = some 7) ∧
    ((((mkSolverVars 3).registerAll
      [⟨[(1, 1), (-1, 2)], -4⟩, ⟨[(1, 0)], -5⟩, ⟨[(1, 1), (1, 2), (-1, 0)], -5⟩]).solve).value_of 2
        = some 3) :=
  solve_order_independent
    [⟨[(1, 1), (-1, 2)], -4⟩, ⟨[(1, 0)], -5⟩, ⟨[(1, 1), (1, 2), (-1, 0)], -5⟩] (by decide)


/-- C3: if a variable is already solved to `v` and a later constraint requires
it to equal `w`, differing from `v` beyond tolerance, the new constraint's id
is added to the inconsistent set and the solved value stays `v`. -/
theorem conflicting_value_flags_inconsistent (s : Solver) (x : Nat) (v w : ℚ)
    (hst : s.back_substitute_stack = [])
    (hkeys : ∀ p ∈ s.constraints, p.1 < s.next_constraint)
    (hx : imGet s.solved_vars x = some v)
    (hvw : relEqB EPSILON v w = false) :
    (s.constrain_eq0 ⟨[(1, x)], -w⟩).1 ∈
      (s.constrain_eq0 ⟨[(1, x)], -w⟩).2.inconsistent_constraints ∧
    (s.constrain_eq0 ⟨[(1, x)], -w⟩).2.value_of x = some v := by
  obtain ⟨k, hsimp, hk⟩ := simplify_single_solved s.solved_vars x v w hx
  have hkf : relEqB MEPS k 0 = false := relEqB_shift v w k hk hvw
  have hres := constrain_inconsistent s ⟨[(1, x)], -w⟩ k hst hkeys hsimp hkf
  constructor
  · rw [show (s.constrain_eq0 ⟨[(1, x)], -w⟩).1 = s.next_constraint from rfl, hres]
    exact mem_isInsert_self _ _
  · rw [hres]
    exact hx

/-- Witness for C3: after registering `x = 5`, registering `x = 6` flags the
new constraint (id 1) inconsistent and keeps `x = 5`. -/
theorem conflicting_value_flags_inconsistent_witness :
    ((((mkSolverVars 2).constrain_eq0 ⟨[(1, 0)], -5⟩).2.constrain_eq0 ⟨[(1, 0)], -6⟩).1 ∈
      (((mkSolverVars 2).constrain_eq0 ⟨[(1, 0)], -5⟩).2.constrain_eq0
        ⟨[(1, 0)], -6⟩).2.inconsistent_constraints) ∧
    ((((mkSolverVars 2).constrain_eq0 ⟨[(1, 0)], -5⟩).2.constrain_eq0
        ⟨[(1, 0)], -6⟩).2.value_of 0 = some 5) :=
  conflicting_value_flags_inconsistent ((mkSolverVars 2).constrain_eq0 ⟨[(1, 0)], -5⟩).2
    0 5 6 (by decide) (by decide) (by decide) (by decide)

/-- Counterexample to C2 as stated: the chain `x = 10.05; y = x` is acyclic
and each constraint reduces to one free variable at its turn, yet the values
committed by `constrain_eq0` are `x = y = 10.1` — the grid rounding of the
implied value 10.05 — not the implied value 10.05 itself. -/
theorem chain_rounded_commit_counterexample :
    ((mkSolverVars 2).registerAll
      [⟨[(1, 0)], -(201/20 : ℚ)⟩, ⟨[(1, 1), (-1, 0)], 0⟩]).value_of 0 = some (101/10) ∧
    ((mkSolverVars 2).registerAll
      [⟨[(1, 0)], -(201/20 : ℚ)⟩, ⟨[(1, 1), (-1, 0)], 0⟩]).value_of 1 = some (101/10) ∧
    ¬(((mkSolverVars 2).registerAll
      [⟨[(1, 0)], -(201/20 : ℚ)⟩, ⟨[(1, 1), (-1, 0)], 0⟩]).value_of 0 = some (201/20)) ∧
    ¬(((mkSolverVars 2).registerAll
      [⟨[(1, 0)], -(201/20 : ℚ)⟩, ⟨[(1, 1), (-1, 0)], 0⟩]).value_of 1 = some (201/20)) := by
  decide

/-- C2 (amended): for an acyclic chain of equality constraints, each reducible
to one free variable at the moment it is registered, the `constrain_eq0` calls
alone solve every chained variable by back-substitution, committing for each
the grid rounding of the value implied by the already-committed earlier
values (equal to the implied value exactly when it lies on the rounding
grid); no constraint is left pending, so the batched `solve` pass is a no-op,
and every variable not mentioned in any of the chain's constraints remains
unsolved. -/
theorem chain_back_substitution_solves (s : Solver) (es : List LinearExpr)
    (vs : List (Nat × ℚ))
    (hc : s.constraints = []) (hst : s.back_substitute_stack = [])
    (hch : Chain s es vs) :
    (∀ pv ∈ vs, (s.registerAll es).value_of pv.1 = some pv.2) ∧
    (s.registerAll es).constraints = [] ∧
    ((s.registerAll es).solve = s.registerAll es) ∧
    (∀ w ∈ s.unsolved_vars, (∀ e ∈ es, w ∉ e.varsOf) →
      w ∈ (s.registerAll es).unsolved_vars) := by
  obtain ⟨h1, h2, _, h4⟩ := chain_solves s es vs hch hc hst
  exact ⟨h1, h2, solve_of_no_constraints _ h2, h4⟩

/-- Witness for C2 (amended): the chain `x = 5; y = x` solves `x = 5` and
`y = 5` (here the implied values are grid-aligned, so the rounded committed
values coincide with them) through `constrain_eq0` alone, `solve` is a no-op
afterwards, and the third variable `z = 2` stays unsolved. -/
theorem chain_back_substitution_solves_witness :
    (∀ pv ∈ [((0 : Nat), (5 : ℚ)), (1, 5)],
      ((mkSolverVars 3).registerAll
        [⟨[(1, 0)], -5⟩, ⟨[(1, 1), (-1, 0)], 0⟩]).value_of pv.1 = some pv.2) ∧
    ((mkSolverVars 3).registerAll [⟨[(1, 0)], -5⟩, ⟨[(1, 1), (-1, 0)], 0⟩]).constraints = [] ∧
    (((mkSolverVars 3).registerAll [⟨[(1, 0)], -5⟩, ⟨[(1, 1), (-1, 0)], 0⟩]).solve =
      (mkSolverVars 3).registerAll [⟨[(1, 0)], -5⟩, ⟨[(1, 1), (-1, 0)], 0⟩]) ∧
    (∀ w ∈ (mkSolverVars 3).unsolved_vars,
      (∀ e ∈ [(⟨[(1, 0)], -5⟩ : LinearExpr), ⟨[(1, 1), (-1, 0)], 0⟩], w ∉ e.varsOf) →
      w ∈ ((mkSolverVars 3).registerAll
        [⟨[(1, 0)], -5⟩, ⟨[(1, 1), (-1, 0)], 0⟩]).unsolved_vars) := by
  have h2 : Chain (((mkSolverVars 3).constrain_eq0
      ⟨[(1, 0)], -5⟩).2.constrain_eq0 ⟨[(1, 1), (-1, 0)], 0⟩).2 [] [] := Chain.nil _
  have h1 := Chain.cons ((mkSolverVars 3).constrain_eq0 ⟨[(1, 0)], -5⟩).2
    ⟨[(1, 1), (-1, 0)], 0⟩ [] 1 1 (-5) [] (by decide) (by decide) h2
  have h1' : Chain ((mkSolverVars 3).constrain_eq0 ⟨[(1, 0)], -5⟩).2
      [⟨[(1, 1), (-1, 0)], 0⟩] [(1, 5)] :=
    (by decide : [((1 : Nat), roundq (-(-5 : ℚ) / 1))] = [(1, 5)]) ▸ h1
  have h0 := Chain.cons (mkSolverVars 3) ⟨[(1, 0)], -5⟩ [⟨[(1, 1), (-1, 0)], 0⟩]
    1 0 (-5) [(1, 5)] (by decide) (by decide) h1'
  have hch : Chain (mkSolverVars 3) [⟨[(1, 0)], -5⟩, ⟨[(1, 1), (-1, 0)], 0⟩]
      [(0, 5), (1, 5)] :=
    (by decide : [((0 : Nat), roundq (-(-5 : ℚ) / 1)), (1, 5)] = [(0, 5), (1, 5)]) ▸ h0
  exact chain_back_substitution_solves (mkSolverVars 3)
    [⟨[(1, 0)], -5⟩, ⟨[(1, 1), (-1, 0)], 0⟩] [(0, 5), (1, 5)] (by decide) (by decide) hch


/-- Counterexample to C5 as stated: for `x = 10.05` (back-substitution path)
the variable is flagged, but the committed value is the grid-rounded `10.1`,
not the unrounded `10.05`. -/
theorem rounding_commit_counterexample :
    (((mkSolverVars 1).constrain_eq0 ⟨[(1, 0)], -(201/20 : ℚ)⟩).2.value_of 0
      = some (101/10)) ∧
    0 ∈ ((mkSolverVars 1).constrain_eq0 ⟨[(1, 0)], -(201/20 : ℚ)⟩).2.invalid_rounding ∧
    ¬(((mkSolverVars 1).constrain_eq0 ⟨[(1, 0)], -(201/20 : ℚ)⟩).2.value_of 0
      = some (201/20)) := by
  decide

/-- C5 (amended): whenever a newly solved value differs from its grid-rounded
value beyond tolerance the variable is recorded in the invalid-rounding set;
on the back-substitution path the committed value is the grid-rounded value,
while on the batched `solve` path the committed value is the unrounded
value. -/
theorem invalid_rounding_commit (s : Solver) (e : LinearExpr) (cf : ℚ) (v : Nat) (k : ℚ)
    (hsimp : e.simplify s.solved_vars = ⟨[(cf, v)], k⟩)
    (hv : imGet s.solved_vars v = none)
    (hflag : relEqB EPSILON (-k / cf) (roundq (-k / cf)) = false) :
    ((s.constrain_eq0 e).2.value_of v = some (roundq (-k / cf)) ∧
     v ∈ (s.constrain_eq0 e).2.invalid_rounding) ∧
    ((((mkSolverVars 2).registerAll
        [⟨[(1, 0), (1, 1)], -(101/10 : ℚ)⟩, ⟨[(1, 0), (-1, 1)], 0⟩]).solve).value_of 0
        = some (101/20) ∧
     0 ∈ (((mkSolverVars 2).registerAll
        [⟨[(1, 0), (1, 1)], -(101/10 : ℚ)⟩, ⟨[(1, 0), (-1, 1)], 0⟩]).solve).invalid_rounding ∧
     ¬((((mkSolverVars 2).registerAll
        [⟨[(1, 0), (1, 1)], -(101/10 : ℚ)⟩, ⟨[(1, 0), (-1, 1)], 0⟩]).solve).value_of 0
        = some (roundq (101/20)))) := by
  constructor
  · obtain ⟨h1, h2, _⟩ := constrain_single_mono s e cf v k hsimp hv
    exact ⟨h1, h2 hflag⟩
  · decide

/-- Witness for C5 (amended): the back-substitution half at `x = 10.05`. -/
theorem invalid_rounding_commit_witness :
    ((((mkSolverVars 1).constrain_eq0 ⟨[(1, 0)], -(201/20 : ℚ)⟩).2.value_of 0
        = some (roundq (-(-(201/20 : ℚ)) / 1)) ∧
      0 ∈ ((mkSolverVars 1).constrain_eq0 ⟨[(1, 0)], -(201/20 : ℚ)⟩).2.invalid_rounding) ∧
     ((((mkSolverVars 2).registerAll
        [⟨[(1, 0), (1, 1)], -(101/10 : ℚ)⟩, ⟨[(1, 0), (-1, 1)], 0⟩]).solve).value_of 0
        = some (101/20) ∧
      0 ∈ (((mkSolverVars 2).registerAll
        [⟨[(1, 0), (1, 1)], -(101/10 : ℚ)⟩, ⟨[(1, 0), (-1, 1)], 0⟩]).solve).invalid_rounding ∧
      ¬((((mkSolverVars 2).registerAll
        [⟨[(1, 0), (1, 1)], -(101/10 : ℚ)⟩, ⟨[(1, 0), (-1, 1)], 0⟩]).solve).value_of 0
        = some (roundq (101/20))))) :=
  invalid_rounding_commit (mkSolverVars 1) ⟨[(1, 0)], -(201/20 : ℚ)⟩ 1 0 (-(201/20 : ℚ))
    (by decide) (by decide) (by decide)


/-- Counterexample to C6 as stated: a variable solved to `10.00003` ends with
value `10.0` but IS placed in the invalid-rounding set, since `3·10⁻⁵`
exceeds the configured tolerance `10⁻⁸`. -/
theorem tolerance_flag_counterexample :
    ((mkSolverVars 1).constrain_eq0 ⟨[(1, 0)], -(1000003/100000 : ℚ)⟩).2.value_of 0
      = some 10 ∧
    ¬(0 ∉ ((mkSolverVars 1).constrain_eq0
      ⟨[(1, 0)], -(1000003/100000 : ℚ)⟩).2.invalid_rounding) := by
  decide

/-- C6 (amended): with the configured grid step 0.1, a variable solved to
`10.00003` ends with value `10.0` but is flagged (its distance to the grid
exceeds the `1e-8` tolerance); a variable solved to `10 + 10⁻⁹` (within
tolerance of the grid) ends with value `10.0` and is not flagged; a variable
solved to `10.05`, midway between grid points, is flagged. -/
theorem grid_rounding_flag_behavior :
    (((mkSolverVars 1).constrain_eq0 ⟨[(1, 0)], -(1000003/100000 : ℚ)⟩).2.value_of 0
        = some 10 ∧
     0 ∈ ((mkSolverVars 1).constrain_eq0
        ⟨[(1, 0)], -(1000003/100000 : ℚ)⟩).2.invalid_rounding) ∧
    (((mkSolverVars 1).constrain_eq0 ⟨[(1, 0)], -(10 + 1/10^9 : ℚ)⟩).2.value_of 0
        = some 10 ∧
     0 ∉ ((mkSolverVars 1).constrain_eq0
        ⟨[(1, 0)], -(10 + 1/10^9 : ℚ)⟩).2.invalid_rounding) ∧
    0 ∈ ((mkSolverVars 1).constrain_eq0
        ⟨[(1, 0)], -(201/20 : ℚ)⟩).2.invalid_rounding := by
  decide

/-- Counterexample to C9 as stated: registering `x = 5` twice leaves the
second (satisfied) constraint stored with an empty coefficient list — a
stored constraint referencing zero unsolved variables. -/
theorem consumed_constraint_counterexample :
    imGet ((mkSolverVars 3).registerAll
      [⟨[(1, 0)], -5⟩, ⟨[(1, 0)], -5⟩]).constraints 1 = some ⟨[], 0⟩ ∧
    ((mkSolverVars 3).registerAll
      [⟨[(1, 0)], -5⟩, ⟨[(1, 0)], -5⟩]).constraints ≠ [] := by
  decide

/-- C9 (amended): a constraint whose variables have all been substituted away
with a residual constant beyond tolerance is removed from the stored map and
recorded inconsistent on the back-substitution path; a satisfied
zero-variable constraint may remain stored until a `solve` pass that performs
a factorization removes it. -/
theorem consumed_constraint_behavior (s : Solver) (e : LinearExpr) (k : ℚ)
    (hst : s.back_substitute_stack = [])
    (hkeys : ∀ p ∈ s.constraints, p.1 < s.next_constraint)
    (hsimp : e.simplify s.solved_vars = ⟨[], k⟩)
    (hk : relEqB MEPS k 0 = false) :
    ((s.constrain_eq0 e).2.constraints = s.constraints ∧
     (s.constrain_eq0 e).1 ∈ (s.constrain_eq0 e).2.inconsistent_constraints) ∧
    ((((mkSolverVars 3).registerAll [⟨[(1, 0)], -5⟩, ⟨[(1, 0)], -5⟩,
        ⟨[(1, 1), (1, 2)], -10⟩, ⟨[(1, 1), (-1, 2)], 0⟩]).solve).constraints = [] ∧
     (((mkSolverVars 3).registerAll [⟨[(1, 0)], -5⟩, ⟨[(1, 0)], -5⟩,
        ⟨[(1, 1), (1, 2)], -10⟩, ⟨[(1, 1), (-1, 2)], 0⟩]).solve).inconsistent_constraints
        = []) := by
  constructor
  · have hres := constrain_inconsistent s e k hst hkeys hsimp hk
    constructor
    · rw [hres]
    · rw [show (s.constrain_eq0 e).1 = s.next_constraint from rfl, hres]
      exact mem_isInsert_self _ _
  · constructor
    · decide
    · decide

/-- Witness for C9 (amended): after `x = 5`, the constraint `x = 6`
simplifies to the residual `-1` and is removed and flagged. -/
theorem consumed_constraint_behavior_witness :
    (((((mkSolverVars 3).constrain_eq0 ⟨[(1, 0)], -5⟩).2.constrain_eq0 ⟨[(1, 0)], -6⟩).2.constraints = ((mkSolverVars 3).constrain_eq0 ⟨[(1, 0)], -5⟩).2.constraints ∧
      (((mkSolverVars 3).constrain_eq0 ⟨[(1, 0)], -5⟩).2.constrain_eq0 ⟨[(1, 0)], -6⟩).1 ∈ (((mkSolverVars 3).constrain_eq0 ⟨[(1, 0)], -5⟩).2.constrain_eq0 ⟨[(1, 0)], -6⟩).2.inconsistent_constraints) ∧
     ((((mkSolverVars 3).registerAll [⟨[(1, 0)], -5⟩, ⟨[(1, 0)], -5⟩,
        ⟨[(1, 1), (1, 2)], -10⟩, ⟨[(1, 1), (-1, 2)], 0⟩]).solve).constraints = [] ∧
      (((mkSolverVars 3).registerAll [⟨[(1, 0)], -5⟩, ⟨[(1, 0)], -5⟩,
        ⟨[(1, 1), (1, 2)], -10⟩, ⟨[(1, 1), (-1, 2)], 0⟩]).solve).inconsistent_constraints = [])) :=
  consumed_constraint_behavior ((mkSolverVars 3).constrain_eq0 ⟨[(1, 0)], -5⟩).2
    ⟨[(1, 0)], -6⟩ (-6 + (0 + 1 * 5)) (by decide) (by decide) (by decide) (by decide)

/-- C7: `force_solution` terminates within as many iterations as there are
unsolved variables (the fuel of the model is exactly that count), and when it
returns, every variable is solved. -/
theorem force_solution_fully_solves (s : Solver)
    (hnd : s.unsolved_vars.Nodup)
    (hdisj : ∀ v ∈ s.unsolved_vars, imGet s.solved_vars v = none) :
    s.force_solution = Solver.force_solution_fuel s.unsolved_vars.length s ∧
    (s.force_solution).fully_solved = true := by
  refine ⟨rfl, ?_⟩
  unfold Solver.force_solution
  exact force_fuel_solves s.unsolved_vars.length s ⟨hnd, hdisj⟩ (Nat.le_refl _)

/-- Witness for C7: forcing a solution of `x + y = 10` over three variables
solves every variable. -/
theorem force_solution_fully_solves_witness :
    (((mkSolverVars 3).registerAll [⟨[(1, 0), (1, 1)], -10⟩]).force_solution =
      Solver.force_solution_fuel
        ((mkSolverVars 3).registerAll [⟨[(1, 0), (1, 1)], -10⟩]).unsolved_vars.length
        ((mkSolverVars 3).registerAll [⟨[(1, 0), (1, 1)], -10⟩])) ∧
    ((((mkSolverVars 3).registerAll [⟨[(1, 0), (1, 1)], -10⟩]).force_solution).fully_solved
      = true) :=
  force_solution_fully_solves ((mkSolverVars 3).registerAll [⟨[(1, 0), (1, 1)], -10⟩])
    (by decide) (by decide)


end Argon
